import Mathlib

/-!
Shallow embedding of `src/tools/refactor_errors.py`, a source-to-source
rewriter that migrates call-style enum variant construction
`AppError::Variant(arg)` to field-style `AppError::Variant { field: arg }`.

File contents are embedded as `List Char`.  The regular expression
`(AppError::<trigger>)\s*\(` is embedded as a literal token match followed by
a run of whitespace characters and an opening parenthesis (`\s` is modelled
by the six ASCII whitespace characters).  The inner while loop locating the
matching close parenthesis is `scanClose`; the per-rule splice-and-restart
while loop is `applyRuleFuel`, fuelled by the number of open parentheses in
the buffer plus one, which is proved sufficient below (each successful
splice removes exactly one open parenthesis).
-/

namespace Refactor

/-- A file buffer: the full text of one source file as a character sequence. -/
abbrev Buffer := List Char

/-- One rewrite rule, mirroring a `(old_variant, new_variant, field_name)`
tuple of the source's `transformations` list. -/
structure Rule where
  old_variant : Buffer
  new_variant : Buffer
  field_name : Buffer
deriving DecidableEq

/-- ASCII whitespace: the characters the pattern's whitespace class accepts
between the variant token and the opening parenthesis. -/
def isWs (c : Char) : Bool :=
  c = ' ' || c = '\t' || c = '\n' || c = '\r' || c = '\x0b' || c = '\x0c'

/-- The qualifier hard-coded into the search pattern, shared by all rules. -/
def qualifier : Buffer := "AppError::".toList

/-- The literal token searched for: the qualifier followed by the trigger. -/
def tokenOf (r : Rule) : Buffer := qualifier ++ r.old_variant

/-- When the trigger pattern (token, then optional whitespace, then an
opening parenthesis) matches at the head of `l`, the number of characters
the match consumes; `none` otherwise. -/
def matchLen (r : Rule) (l : Buffer) : Option Nat :=
  if (tokenOf r).isPrefixOf l then
    let rest := l.drop (tokenOf r).length
    let w := rest.takeWhile isWs
    if (rest.drop w.length).head? = some '(' then
      some ((tokenOf r).length + w.length + 1)
    else none
  else none

/-- Leftmost occurrence of the trigger pattern at or after position `pos`,
as (match start, match end), like the source's `pattern.search`. -/
def searchFrom (r : Rule) : Buffer → Nat → Option (Nat × Nat)
  | [], _ => none
  | c :: rest, pos =>
    match matchLen r (c :: rest) with
    | some n => some (pos, pos + n)
    | none => searchFrom r rest (pos + 1)

/-- Search the whole buffer for the leftmost trigger-pattern occurrence. -/
def search (r : Rule) (b : Buffer) : Option (Nat × Nat) := searchFrom r b 0

/-- The balanced-delimiter scan of the source: starting with open count
`depth`, consume characters of `l`, incrementing on an open parenthesis and
decrementing on a close parenthesis; return how many characters were
consumed when the count reaches zero, or `none` if the end of the buffer is
reached first. -/
def scanClose : Buffer → Nat → Option Nat
  | [], _ => none
  | c :: rest, depth =>
    let d := if c = '(' then depth + 1 else if c = ')' then depth - 1 else depth
    if d = 0 then some 1 else (scanClose rest d).map (· + 1)

/-- The extractor as an index function: given a buffer and the index
immediately after an opening parenthesis (so the logical open count is 1),
the index immediately past the parenthesis that brought the count to zero. -/
def find_matching_close (b : Buffer) (start : Nat) : Option Nat :=
  (scanClose (b.drop start) 1).map (start + ·)

/-- The replacement text spliced in for one occurrence:
`AppError::<new_variant> { <field_name>: <arg> }`. -/
def replacementText (r : Rule) (arg : Buffer) : Buffer :=
  qualifier ++ r.new_variant ++ " \x7b ".toList ++ r.field_name
    ++ ": ".toList ++ arg ++ " \x7d".toList

/-- Outcome of one iteration of the per-rule while loop. -/
inductive StepResult where
  | noMatch
  | failed
  | spliced (b2 : Buffer)
deriving DecidableEq

/-- One iteration of the per-rule while loop: find the next occurrence,
run the balanced scan just past its opening parenthesis, take the verbatim
argument text, and splice the replacement over the matched span. -/
def ruleStep (r : Rule) (b : Buffer) : StepResult :=
  match search r b with
  | none => .noMatch
  | some (s, e0) =>
    match scanClose (b.drop e0) 1 with
    | none => .failed
    | some k =>
      let e := e0 + k
      let arg := (b.take (e - 1)).drop e0
      .spliced (b.take s ++ replacementText r arg ++ b.drop e)

/-- Number of open parentheses in a buffer: the termination measure of the
per-rule loop. -/
def parenCount (b : Buffer) : Nat := b.count '('

/-- The per-rule while loop, fuelled.  Returns the rewritten buffer and
whether the loop aborted on an unbalanced occurrence (the source's error
print and `break`). -/
def applyRuleFuel (r : Rule) : Nat → Buffer → Buffer × Bool
  | 0, b => (b, false)
  | fuel + 1, b =>
    match ruleStep r b with
    | .noMatch => (b, false)
    | .failed => (b, true)
    | .spliced b2 => applyRuleFuel r fuel b2

/-- The per-rule while loop.  `parenCount b + 1` fuel is proved sufficient
below: every successful splice removes exactly one open parenthesis. -/
def applyRule (r : Rule) (b : Buffer) : Buffer × Bool :=
  applyRuleFuel r (parenCount b + 1) b

/-- Run each rule's loop in list order over the evolving buffer; returns the
final buffer and the per-rule failure flags. -/
def applyRules : List Rule → Buffer → Buffer × List Bool
  | [], b => (b, [])
  | r :: rs, b =>
    let p := applyRule r b
    let q := applyRules rs p.1
    (q.1, p.2 :: q.2)

/-- The source's fixed transformation table. -/
def transformations : List Rule :=
  [⟨"Validation".toList, "Validation".toList, "reason".toList⟩,
   ⟨"InternalError".toList, "Internal".toList, "message".toList⟩,
   ⟨"AssetError".toList, "Asset".toList, "message".toList⟩,
   ⟨"MalformedEnvToml".toList, "EnvTomlError".toList, "message".toList⟩]

/-- The diagnostic printed when the scan runs off the end of the buffer. -/
def errMsg (fp : Buffer) : Buffer :=
  "Error: Could not find matching parenthesis in ".toList ++ fp

/-- The message printed when a changed file is written back. -/
def updateMsg (fp : Buffer) : Buffer := "Updating ".toList ++ fp

/-- Whole-file processing: run all rules over the buffer, collect the
diagnostics in print order, and report whether the file is written back
(the source writes exactly when the final content differs). -/
def refactor_file (fp content : Buffer) : Buffer × List Buffer × Bool :=
  let p := applyRules transformations content
  let errs := (p.2.filter id).map fun _ => errMsg fp
  if p.1 = content then (p.1, errs, false)
  else (p.1, errs ++ [updateMsg fp], true)

/-- The Validation rule, first entry of the transformation table. -/
def vRule : Rule := ⟨"Validation".toList, "Validation".toList, "reason".toList⟩

/-! ## Parenthesis balance and the scan characterisation -/

/-- Parenthesis balance (opens minus closes) of a buffer segment. -/
def delta (l : Buffer) : Int := (l.count '(' : Int) - (l.count ')' : Int)

/-- Balance contribution of a single character. -/
def chDelta (c : Char) : Int := if c = '(' then 1 else if c = ')' then -1 else 0

theorem delta_nil : delta [] = 0 := rfl

theorem delta_append (x y : Buffer) : delta (x ++ y) = delta x + delta y := by
  simp only [delta, List.count_append]
  push_cast
  ring

theorem delta_cons (c : Char) (l : Buffer) : delta (c :: l) = chDelta c + delta l := by
  rcases eq_or_ne c '(' with h | h
  · subst h
    simp [delta, chDelta, List.count_cons]
    ring
  · rcases eq_or_ne c ')' with h2 | h2
    · subst h2
      simp [delta, chDelta, List.count_cons]
      ring
    · simp [delta, chDelta, List.count_cons, h, h2, Ne.symm h, Ne.symm h2]

/-- The running open count stays strictly positive through every prefix of
`l` when started at `d`. -/
def allPos (d : Int) (l : Buffer) : Prop :=
  ∀ k, k ≤ l.length → 0 < d + delta (l.take k)

theorem allPos_pos {d : Int} {l : Buffer} (h : allPos d l) : 0 < d := by
  have := h 0 (Nat.zero_le _)
  simpa [delta_nil] using this

theorem allPos_nil {d : Int} : allPos d [] ↔ 0 < d := by
  constructor
  · exact allPos_pos
  · intro h k hk
    have hk0 : k = 0 := Nat.le_zero.mp hk
    subst hk0
    simpa [delta_nil] using h

theorem allPos_cons {d : Int} {c : Char} {l : Buffer} :
    allPos d (c :: l) ↔ 0 < d ∧ allPos (d + chDelta c) l := by
  constructor
  · intro h
    refine ⟨allPos_pos h, ?_⟩
    intro k hk
    have := h (k + 1) (by simpa using Nat.succ_le_succ hk)
    simpa [List.take_succ_cons, delta_cons, add_assoc] using this
  · rintro ⟨hd, h⟩
    intro k hk
    cases k with
    | zero => simpa [delta_nil] using hd
    | succ j =>
      have := h j (by simpa using Nat.lt_succ_iff.mp (Nat.lt_of_succ_le hk))
      simpa [List.take_succ_cons, delta_cons, add_assoc] using this

theorem allPos_append {d : Int} {x y : Buffer} :
    allPos d (x ++ y) ↔ allPos d x ∧ allPos (d + delta x) y := by
  induction x generalizing d with
  | nil =>
    simp only [List.nil_append, delta_nil, add_zero, allPos_nil]
    constructor
    · intro h
      exact ⟨allPos_pos h, h⟩
    · exact fun h => h.2
  | cons c t ih =>
    simp only [List.cons_append, allPos_cons, ih, delta_cons]
    constructor
    · rintro ⟨hd, h1, h2⟩
      refine ⟨⟨hd, h1⟩, ?_⟩
      rw [← add_assoc]
      exact h2
    · rintro ⟨⟨hd, h1⟩, h2⟩
      refine ⟨hd, h1, ?_⟩
      rw [add_assoc]
      exact h2

theorem allPos_mono {d d2 : Int} {l : Buffer} (hd : d ≤ d2) (h : allPos d l) :
    allPos d2 l := by
  intro k hk
  have := h k hk
  omega

/-- A segment containing no parentheses has zero balance on every prefix. -/
theorem delta_take_eq_zero {l : Buffer} (h1 : '(' ∉ l) (h2 : ')' ∉ l) (k : Nat) :
    delta (l.take k) = 0 := by
  have t1 : '(' ∉ l.take k := fun hc => h1 (List.take_subset k l hc)
  have t2 : ')' ∉ l.take k := fun hc => h2 (List.take_subset k l hc)
  simp [delta, List.count_eq_zero_of_not_mem, t1, t2]

theorem allPos_of_no_paren {d : Int} {l : Buffer} (h1 : '(' ∉ l) (h2 : ')' ∉ l)
    (hd : 0 < d) : allPos d l := by
  intro k hk
  simp [delta_take_eq_zero h1 h2, hd]

/-- Whitespace characters are never parentheses. -/
theorem ws_ne_paren {c : Char} (h : isWs c = true) : c ≠ '(' ∧ c ≠ ')' := by
  constructor <;> rintro rfl <;> simp [isWs] at h

/-- Evaluation of the scan on an open parenthesis. -/
theorem scanClose_cons_open (rest : Buffer) (d : Nat) :
    scanClose ('(' :: rest) d = (scanClose rest (d + 1)).map (· + 1) := by
  simp [scanClose]

/-- Evaluation of the scan on a close parenthesis at count one. -/
theorem scanClose_cons_close_one (rest : Buffer) :
    scanClose (')' :: rest) 1 = some 1 := by
  simp [scanClose]

/-- Evaluation of the scan on a close parenthesis at count at least two. -/
theorem scanClose_cons_close (rest : Buffer) (d : Nat) (hd : 2 ≤ d) :
    scanClose (')' :: rest) d = (scanClose rest (d - 1)).map (· + 1) := by
  have h1 : ¬ (')' = '(') := by decide
  have h2 : ¬ (d - 1 = 0) := by omega
  simp [scanClose, h1, h2]

/-- Evaluation of the scan on a character that is not a parenthesis. -/
theorem scanClose_cons_other (c : Char) (rest : Buffer) (d : Nat) (h1 : c ≠ '(')
    (h2 : c ≠ ')') (hd : 1 ≤ d) :
    scanClose (c :: rest) d = (scanClose rest d).map (· + 1) := by
  have h3 : ¬ (d = 0) := by omega
  simp [scanClose, h1, h2, h3]

/-- The scan fails exactly when the open count stays positive to the end of
the buffer. -/
theorem scanClose_none_iff : ∀ (l : Buffer) (d : Nat), 1 ≤ d →
    (scanClose l d = none ↔ allPos (d : Int) l) := by
  intro l
  induction l with
  | nil =>
    intro d hd
    simp only [scanClose, allPos_nil]
    norm_num
    exact_mod_cast hd
  | cons c rest ih =>
    intro d hd
    rcases eq_or_ne c '(' with rfl | h1
    · rw [scanClose_cons_open, Option.map_eq_none', ih (d + 1) (by omega), allPos_cons]
      have hch : chDelta '(' = 1 := rfl
      have hcast : ((d + 1 : Nat) : Int) = (d : Int) + 1 := by push_cast; ring
      rw [hch, hcast]
      constructor
      · intro h
        exact ⟨by exact_mod_cast hd, h⟩
      · exact fun h => h.2
    · rcases eq_or_ne c ')' with rfl | h2
      · rcases Nat.lt_or_ge 1 d with hgt | hle
        · rw [scanClose_cons_close rest d (by omega), Option.map_eq_none',
            ih (d - 1) (by omega), allPos_cons]
          have hch : chDelta ')' = -1 := rfl
          have hcast : ((d - 1 : Nat) : Int) = (d : Int) - 1 := by omega
          rw [hch, hcast]
          constructor
          · intro h
            refine ⟨by exact_mod_cast hd, ?_⟩
            have : (d : Int) - 1 = (d : Int) + -1 := by ring
            rw [← this]
            exact h
          · rintro ⟨_, h⟩
            have : (d : Int) + -1 = (d : Int) - 1 := by ring
            rw [← this]
            exact h
        · have hd1 : d = 1 := by omega
          subst hd1
          rw [scanClose_cons_close_one]
          constructor
          · intro h
            exact absurd h (by simp)
          · intro hcon
            rw [allPos_cons] at hcon
            have := allPos_pos hcon.2
            have hch : chDelta ')' = -1 := rfl
            rw [hch] at this
            norm_num at this
      · rw [scanClose_cons_other c rest d h1 h2 hd, Option.map_eq_none', ih d hd,
          allPos_cons]
        have hch : chDelta c = 0 := by simp [chDelta, h1, h2]
        rw [hch, add_zero]
        constructor
        · intro h
          exact ⟨by exact_mod_cast hd, h⟩
        · exact fun h => h.2

/-- Structure of a successful scan: the consumed span is a balanced-open
region followed by the close parenthesis that brought the count to zero. -/
theorem scanClose_some : ∀ (l : Buffer) (d : Nat), 1 ≤ d → ∀ k, scanClose l d = some k →
    ∃ a rest, l = a ++ ')' :: rest ∧ k = a.length + 1 ∧
      (d : Int) + delta a = 1 ∧ allPos (d : Int) a := by
  intro l
  induction l with
  | nil =>
    intro d _ k h
    simp [scanClose] at h
  | cons c rest ih =>
    intro d hd k h
    rcases eq_or_ne c '(' with rfl | h1
    · rw [scanClose_cons_open, Option.map_eq_some'] at h
      obtain ⟨k0, hk0, rfl⟩ := h
      obtain ⟨a, r2, hdec, hlen, hbal, hpos⟩ := ih (d + 1) (by omega) k0 hk0
      have hch : chDelta '(' = 1 := rfl
      have hcast : ((d + 1 : Nat) : Int) = (d : Int) + 1 := by push_cast; ring
      refine ⟨'(' :: a, r2, by simp [hdec], by simp [hlen], ?_, ?_⟩
      · rw [delta_cons, hch]
        rw [hcast] at hbal
        omega
      · rw [allPos_cons, hch]
        refine ⟨by exact_mod_cast hd, ?_⟩
        rw [hcast] at hpos
        exact hpos
    · rcases eq_or_ne c ')' with rfl | h2
      · rcases Nat.lt_or_ge 1 d with hgt | hle
        · rw [scanClose_cons_close rest d (by omega), Option.map_eq_some'] at h
          obtain ⟨k0, hk0, rfl⟩ := h
          obtain ⟨a, r2, hdec, hlen, hbal, hpos⟩ := ih (d - 1) (by omega) k0 hk0
          have hch : chDelta ')' = -1 := rfl
          have hcast : ((d - 1 : Nat) : Int) = (d : Int) - 1 := by omega
          refine ⟨')' :: a, r2, by simp [hdec], by simp [hlen], ?_, ?_⟩
          · rw [delta_cons, hch]
            rw [hcast] at hbal
            omega
          · rw [allPos_cons, hch]
            refine ⟨by exact_mod_cast hd, ?_⟩
            rw [hcast] at hpos
            have : (d : Int) + -1 = (d : Int) - 1 := by ring
            rw [this]
            exact hpos
        · have hd1 : d = 1 := by omega
          subst hd1
          rw [scanClose_cons_close_one] at h
          have hk : k = 1 := by
            simpa using h.symm
          subst hk
          refine ⟨[], rest, by simp, by simp, by simp [delta_nil], ?_⟩
          rw [allPos_nil]
          norm_num
      · rw [scanClose_cons_other c rest d h1 h2 hd, Option.map_eq_some'] at h
        obtain ⟨k0, hk0, rfl⟩ := h
        obtain ⟨a, r2, hdec, hlen, hbal, hpos⟩ := ih d hd k0 hk0
        have hch : chDelta c = 0 := by simp [chDelta, h1, h2]
        refine ⟨c :: a, r2, by simp [hdec], by simp [hlen], ?_, ?_⟩
        · rw [delta_cons, hch]
          omega
        · rw [allPos_cons, hch]
          exact ⟨by exact_mod_cast hd, by simpa using hpos⟩

/-! ## Characterisation of the pattern search -/

/-- A run of accepted characters followed by a rejected one is its own
longest accepted run. -/
theorem takeWhile_all_append (p : Char → Bool) :
    ∀ (w : Buffer), (∀ c ∈ w, p c = true) → ∀ (c : Char), p c = false → ∀ l,
      ((w ++ c :: l).takeWhile p) = w := by
  intro w
  induction w with
  | nil =>
    intro _ c hc l
    simp [List.takeWhile, hc]
  | cons a t ih =>
    intro hw c hc l
    have ha : p a = true := hw a (by simp)
    simp only [List.cons_append, List.takeWhile_cons, ha, if_true]
    rw [ih (fun x hx => hw x (by simp [hx])) c hc l]

/-- Dropping the accepted run's length is the same as dropping while. -/
theorem drop_length_takeWhile (p : Char → Bool) :
    ∀ t : Buffer, t.drop (t.takeWhile p).length = t.dropWhile p := by
  intro t
  induction t with
  | nil => rfl
  | cons a t ih =>
    cases ha : p a with
    | true => simpa [List.takeWhile_cons, List.dropWhile_cons, ha] using ih
    | false => simp [List.takeWhile_cons, List.dropWhile_cons, ha]

/-- The pattern matches at the head of `l` exactly when `l` is the token,
a whitespace run, an opening parenthesis, and arbitrary remainder; the
consumed length is everything through the parenthesis. -/
theorem matchLen_eq_some (r : Rule) (l : Buffer) (n : Nat) :
    matchLen r l = some n ↔
    ∃ w rest, (∀ c ∈ w, isWs c = true) ∧ l = tokenOf r ++ (w ++ '(' :: rest) ∧
      n = (tokenOf r).length + w.length + 1 := by
  constructor
  · intro h
    simp only [matchLen] at h
    split at h
    · next hpre =>
      have hp : tokenOf r <+: l := List.isPrefixOf_iff_prefix.mp hpre
      obtain ⟨t, ht⟩ := hp
      have hdrop : l.drop (tokenOf r).length = t := by
        rw [← ht, List.drop_left]
      rw [hdrop] at h
      have htw : t = t.takeWhile isWs ++ t.dropWhile isWs :=
        (List.takeWhile_append_dropWhile isWs t).symm
      rw [drop_length_takeWhile] at h
      split at h
      · next hhead =>
        obtain ⟨d, hd⟩ : ∃ d, t.dropWhile isWs = '(' :: d := by
          cases hdo : t.dropWhile isWs with
          | nil => rw [hdo] at hhead; simp at hhead
          | cons x xs =>
            rw [hdo] at hhead
            simp only [List.head?_cons, Option.some.injEq] at hhead
            exact ⟨xs, by rw [hhead]⟩
        refine ⟨t.takeWhile isWs, d, ?_, ?_, ?_⟩
        · intro c hc
          exact List.mem_takeWhile_imp hc
        · rw [← ht]
          conv_lhs => rw [htw, hd]
        · exact (Option.some_injective _ h).symm
      · exact absurd h (by simp)
    · exact absurd h (by simp)
  · rintro ⟨w, rest, hws, rfl, rfl⟩
    have hpre : (tokenOf r).isPrefixOf (tokenOf r ++ (w ++ '(' :: rest)) = true := by
      rw [List.isPrefixOf_iff_prefix]
      exact List.prefix_append _ _
    have htw : (w ++ '(' :: rest).takeWhile isWs = w :=
      takeWhile_all_append isWs w hws '(' (by decide) rest
    simp only [matchLen, hpre, if_true, List.drop_left, htw]
    simp

/-- Searching with a shifted position offset shifts the reported indices. -/
theorem searchFrom_shift (r : Rule) :
    ∀ (l : Buffer) (pos : Nat),
      searchFrom r l pos = (searchFrom r l 0).map fun p => (p.1 + pos, p.2 + pos) := by
  intro l
  induction l with
  | nil => intro pos; rfl
  | cons c rest ih =>
    intro pos
    rw [searchFrom, searchFrom]
    cases hm : matchLen r (c :: rest) with
    | some n => simp [Nat.add_comm]
    | none =>
      rw [ih (pos + 1), ih 1]
      cases searchFrom r rest 0 with
      | none => rfl
      | some p => simp [Nat.add_comm, Nat.add_assoc, Nat.add_left_comm]

/-- A successful search returns the leftmost match: the pattern matches at
the start index with the reported consumed length, and at no earlier index. -/
theorem search_some_spec (r : Rule) (b : Buffer) (s e0 : Nat)
    (h : search r b = some (s, e0)) :
    ∃ n, matchLen r (b.drop s) = some n ∧ e0 = s + n ∧
      ∀ q < s, matchLen r (b.drop q) = none := by
  induction b generalizing s e0 with
  | nil => simp [search, searchFrom] at h
  | cons c rest ih =>
    rw [search, searchFrom] at h
    cases hm : matchLen r (c :: rest) with
    | some n =>
      rw [hm] at h
      simp only [Option.some.injEq, Prod.mk.injEq] at h
      obtain ⟨rfl, rfl⟩ := h
      exact ⟨n, by simpa using hm, by simp, by omega⟩
    | none =>
      rw [hm, searchFrom_shift] at h
      cases hs : searchFrom r rest 0 with
      | none => rw [hs] at h; simp at h
      | some p =>
        rw [hs] at h
        simp only [Option.map_some', Option.some.injEq] at h
        have hsearch : search r rest = some (p.1, p.2) := hs
        obtain ⟨n, hmatch, he, hmin⟩ := ih p.1 p.2 hsearch
        rw [Prod.mk.injEq] at h
        have hs1 : s = p.1 + 1 := by omega
        have he1 : e0 = p.2 + 1 := by omega
        refine ⟨n, ?_, by omega, ?_⟩
        · rw [hs1]
          simpa using hmatch
        · intro q hq
          cases q with
          | zero => simpa using hm
          | succ j =>
            have : j < p.1 := by omega
            simpa using hmin j this

/-- A failed search means the pattern matches at no index at all. -/
theorem search_none_spec (r : Rule) (b : Buffer)
    (h : search r b = none) : ∀ q, matchLen r (b.drop q) = none := by
  induction b with
  | nil =>
    intro q
    cases hm : matchLen r ([].drop q) with
    | none => rfl
    | some n =>
      rw [List.drop_nil] at hm
      rw [matchLen_eq_some] at hm
      obtain ⟨w, rest, _, habs, _⟩ := hm
      have : (0 : Nat) < (tokenOf r ++ (w ++ '(' :: rest)).length := by
        simp
      rw [← habs] at this
      simp at this
  | cons c rest ih =>
    rw [search, searchFrom] at h
    cases hm : matchLen r (c :: rest) with
    | some n => rw [hm] at h; simp at h
    | none =>
      rw [hm, searchFrom_shift] at h
      intro q
      cases q with
      | zero => simpa using hm
      | succ j =>
        cases hs : searchFrom r rest 0 with
        | some p => rw [hs] at h; simp at h
        | none =>
          have : search r rest = none := hs
          simpa using ih this j

/-! ## Structure of one loop iteration -/

/-- Evaluating the loop iteration when no occurrence remains. -/
theorem ruleStep_of_search_none {r : Rule} {b : Buffer}
    (h : search r b = none) : ruleStep r b = .noMatch := by
  simp only [ruleStep, h]

/-- Evaluating the loop iteration when the scan runs off the end. -/
theorem ruleStep_of_scan_none {r : Rule} {b : Buffer} {s e0 : Nat}
    (h1 : search r b = some (s, e0)) (h2 : scanClose (b.drop e0) 1 = none) :
    ruleStep r b = .failed := by
  simp only [ruleStep, h1, h2]

/-- Evaluating the loop iteration when the scan succeeds. -/
theorem ruleStep_of_scan_some {r : Rule} {b : Buffer} {s e0 k : Nat}
    (h1 : search r b = some (s, e0)) (h2 : scanClose (b.drop e0) 1 = some k) :
    ruleStep r b =
      .spliced (b.take s ++ replacementText r ((b.take (e0 + k - 1)).drop e0)
        ++ b.drop (e0 + k)) := by
  simp only [ruleStep, h1, h2]

/-- Inversion: a spliced result came from a successful search and scan. -/
theorem ruleStep_spliced_inv (r : Rule) (b b2 : Buffer)
    (h : ruleStep r b = .spliced b2) :
    ∃ s e0 k, search r b = some (s, e0) ∧ scanClose (b.drop e0) 1 = some k ∧
      b2 = b.take s ++ replacementText r ((b.take (e0 + k - 1)).drop e0)
        ++ b.drop (e0 + k) := by
  cases hs : search r b with
  | none => rw [ruleStep_of_search_none hs] at h; exact absurd h (by simp)
  | some p =>
    obtain ⟨s, e0⟩ := p
    cases hc : scanClose (b.drop e0) 1 with
    | none => rw [ruleStep_of_scan_none hs hc] at h; exact absurd h (by simp)
    | some k =>
      rw [ruleStep_of_scan_some hs hc] at h
      obtain rfl : _ = b2 := by
        cases h
        rfl
      exact ⟨s, e0, k, rfl, hc, rfl⟩

/-- Inversion: a failed result came from a successful search whose scan ran
off the end of the buffer with the count still positive. -/
theorem ruleStep_failed_inv (r : Rule) (b : Buffer)
    (h : ruleStep r b = .failed) :
    ∃ s e0, search r b = some (s, e0) ∧ scanClose (b.drop e0) 1 = none := by
  cases hs : search r b with
  | none => rw [ruleStep_of_search_none hs] at h; exact absurd h (by simp)
  | some p =>
    obtain ⟨s, e0⟩ := p
    cases hc : scanClose (b.drop e0) 1 with
    | none => exact ⟨s, e0, rfl, hc⟩
    | some k => rw [ruleStep_of_scan_some hs hc] at h; exact absurd h (by simp)

/-- Inversion: a no-match result means the search failed. -/
theorem ruleStep_noMatch_inv (r : Rule) (b : Buffer)
    (h : ruleStep r b = .noMatch) : search r b = none := by
  cases hs : search r b with
  | none => rfl
  | some p =>
    obtain ⟨s, e0⟩ := p
    cases hc : scanClose (b.drop e0) 1 with
    | none => rw [ruleStep_of_scan_none hs hc] at h; exact absurd h (by simp)
    | some k => rw [ruleStep_of_scan_some hs hc] at h; exact absurd h (by simp)

/-- The token is never empty: it starts with the ten qualifier characters. -/
theorem tokenOf_length (r : Rule) : (tokenOf r).length = 10 + r.old_variant.length := by
  simp [tokenOf, qualifier]
  omega

/-- Full structure of one successful splice: the buffer decomposes into the
unchanged text before the matched token, the token, the whitespace run, the
opening parenthesis, the balanced argument, the closing parenthesis and the
unchanged suffix; the new buffer replaces the matched span by the
replacement text built from the verbatim argument. -/
theorem ruleStep_spliced_decomp (r : Rule) (b b2 : Buffer)
    (h : ruleStep r b = .spliced b2) :
    ∃ P w A S, (∀ c ∈ w, isWs c = true) ∧
      b = P ++ tokenOf r ++ (w ++ '(' :: (A ++ ')' :: S)) ∧
      b2 = P ++ replacementText r A ++ S ∧
      delta A = 0 ∧ allPos 1 A ∧
      (∀ q < P.length, matchLen r (b.drop q) = none) := by
  obtain ⟨s, e0, k, hs, hc, hb2⟩ := ruleStep_spliced_inv r b b2 h
  obtain ⟨n, hm, he0, hmin⟩ := search_some_spec r b s e0 hs
  rw [matchLen_eq_some] at hm
  obtain ⟨w, rest, hws, hdec, hn⟩ := hm
  obtain ⟨P, hPdef⟩ : ∃ P, b.take s = P := ⟨_, rfl⟩
  rw [hPdef] at hb2
  have hsle : s ≤ b.length := by
    by_contra hgt
    push_neg at hgt
    have hnil : b.drop s = [] := List.drop_eq_nil_of_le (le_of_lt hgt)
    rw [hnil] at hdec
    have hlen0 : (0 : Nat) = (tokenOf r ++ (w ++ '(' :: rest)).length := by
      rw [← hdec]
      rfl
    rw [List.length_append, tokenOf_length] at hlen0
    omega
  have hPlen : P.length = s := by
    rw [← hPdef, List.length_take]
    omega
  have hb : b = P ++ (tokenOf r ++ (w ++ '(' :: rest)) := by
    conv_lhs => rw [← List.take_append_drop s b]
    rw [hPdef, hdec]
  have hb1 : b = (P ++ tokenOf r ++ w ++ ['(']) ++ rest := by
    rw [hb]
    simp [List.append_assoc]
  have hL1len : (P ++ tokenOf r ++ w ++ ['(']).length = e0 := by
    simp only [List.length_append, hPlen, List.length_cons, List.length_nil]
    omega
  have hrestdrop : b.drop e0 = rest := by
    conv_lhs => rw [hb1]
    exact List.drop_left' hL1len
  rw [hrestdrop] at hc
  obtain ⟨A, S, hrest, hk, hbal, hpos⟩ :=
    scanClose_some rest 1 (by norm_num) k hc
  have hdeltaA : delta A = 0 := by
    norm_num at hbal
    exact hbal
  have hargeq : (b.take (e0 + k - 1)).drop e0 = A := by
    have hb3 : b = (P ++ tokenOf r ++ w ++ ['(']) ++ (A ++ ')' :: S) := by
      rw [hb1, hrest]
    have htake : b.take (e0 + k - 1) = (P ++ tokenOf r ++ w ++ ['(']) ++ A := by
      conv_lhs => rw [hb3]
      have hidx : e0 + k - 1 = (P ++ tokenOf r ++ w ++ ['(']).length + A.length := by
        rw [hL1len]
        omega
      rw [hidx, List.take_append]
      congr 1
      exact List.take_left' rfl
    rw [htake]
    exact List.drop_left' hL1len
  have hSdrop : b.drop (e0 + k) = S := by
    have hb4 : b = ((P ++ tokenOf r ++ w ++ ['(']) ++ A ++ [')']) ++ S := by
      rw [hb1, hrest]
      simp [List.append_assoc]
    conv_lhs => rw [hb4]
    refine List.drop_left' ?_
    simp only [List.length_append, hL1len, List.length_cons, List.length_nil]
    omega
  refine ⟨P, w, A, S, hws, ?_, ?_, hdeltaA, hpos, ?_⟩
  · rw [hb, hrest]
    simp [List.append_assoc]
  · rw [hb2, hargeq, hSdrop]
  · intro q hq
    rw [hPlen] at hq
    exact hmin q hq

/-! ## Termination of the per-rule loop -/

/-- Unfolding of the rule list fold on a cons cell. -/
theorem applyRules_cons (r : Rule) (rs : List Rule) (b : Buffer) :
    applyRules (r :: rs) b =
      ((applyRules rs (applyRule r b).1).1,
        (applyRule r b).2 :: (applyRules rs (applyRule r b).1).2) := rfl

/-- A rule whose inserted fragments contain no open parenthesis.  Every rule
of the table satisfies this. -/
def insertParenFree (r : Rule) : Prop :=
  '(' ∉ r.new_variant ∧ '(' ∉ r.field_name

instance (r : Rule) : Decidable (insertParenFree r) := by
  unfold insertParenFree
  infer_instance

theorem transformations_insertParenFree : ∀ r ∈ transformations, insertParenFree r := by
  decide

/-- Every successful splice removes exactly the matched opening parenthesis
(and possibly more, if the trigger itself contained some), so the open-paren
count strictly decreases. -/
theorem parenCount_lt_of_spliced {r : Rule} {b b2 : Buffer}
    (hr : insertParenFree r) (h : ruleStep r b = .spliced b2) :
    parenCount b2 < parenCount b := by
  obtain ⟨P, w, A, S, hws, hb, hb2, _, _, _⟩ := ruleStep_spliced_decomp r b b2 h
  have hw0 : w.count '(' = 0 := by
    rw [List.count_eq_zero]
    intro hmem
    have := hws '(' hmem
    simp [isWs] at this
  have hn0 : r.new_variant.count '(' = 0 := List.count_eq_zero.mpr hr.1
  have hf0 : r.field_name.count '(' = 0 := List.count_eq_zero.mpr hr.2
  have hq0 : qualifier.count '(' = 0 := rfl
  have hs1 : (" \x7b ".toList).count '(' = 0 := rfl
  have hs2 : (": ".toList).count '(' = 0 := rfl
  have hs3 : (" \x7d".toList).count '(' = 0 := rfl
  have hbA : b = P ++ tokenOf r ++ w ++ ['('] ++ A ++ [')'] ++ S := by
    rw [hb]
    simp [List.append_assoc]
  rw [hbA, hb2]
  simp only [parenCount, replacementText, List.count_append, hw0, hn0, hf0, hq0,
    hs1, hs2, hs3]
  have hop : (['('] : Buffer).count '(' = 1 := rfl
  have hcl : ([')'] : Buffer).count '(' = 0 := rfl
  rw [hop, hcl]
  omega

/-- Any fuel above the open-paren count computes the loop's true result. -/
theorem applyRuleFuel_stable {r : Rule} (hr : insertParenFree r) :
    ∀ (fuel : Nat) (b : Buffer), parenCount b < fuel →
      applyRuleFuel r fuel b = applyRule r b := by
  intro fuel
  induction fuel using Nat.strong_induction_on with
  | _ fuel ih =>
    intro b hb
    obtain ⟨f, rfl⟩ : ∃ f, fuel = f + 1 := ⟨fuel - 1, by omega⟩
    rw [applyRule]
    cases hstep : ruleStep r b with
    | noMatch => simp only [applyRuleFuel, hstep]
    | failed => simp only [applyRuleFuel, hstep]
    | spliced b2 =>
      have hlt := parenCount_lt_of_spliced hr hstep
      have h1 : applyRuleFuel r (f + 1) b = applyRuleFuel r f b2 := by
        simp only [applyRuleFuel, hstep]
      have h2 : applyRuleFuel r (parenCount b + 1) b = applyRuleFuel r (parenCount b) b2 := by
        simp only [applyRuleFuel, hstep]
      rw [h1, h2]
      rw [ih f (by omega) b2 (by omega)]
      rw [ih (parenCount b) (by omega) b2 (by omega)]

/-- A buffer on which the rule's loop makes no further progress. -/
def rTerminal (r : Rule) (b : Buffer) : Prop :=
  ruleStep r b = .noMatch ∨ ruleStep r b = .failed

theorem applyRule_of_noMatch {r : Rule} {b : Buffer}
    (h : ruleStep r b = .noMatch) : applyRule r b = (b, false) := by
  rw [applyRule]
  simp only [applyRuleFuel, h]

theorem applyRule_of_failed {r : Rule} {b : Buffer}
    (h : ruleStep r b = .failed) : applyRule r b = (b, true) := by
  rw [applyRule]
  simp only [applyRuleFuel, h]

/-- On a terminal buffer the pass returns the buffer unchanged. -/
theorem applyRule_fst_of_terminal {r : Rule} {b : Buffer} (h : rTerminal r b) :
    (applyRule r b).1 = b := by
  cases h with
  | inl h => rw [applyRule_of_noMatch h]
  | inr h => rw [applyRule_of_failed h]

theorem applyRule_terminal_aux {r : Rule} (hr : insertParenFree r) :
    ∀ (m : Nat) (b : Buffer), parenCount b ≤ m → rTerminal r (applyRule r b).1 := by
  intro m
  induction m with
  | zero =>
    intro b hb
    cases hstep : ruleStep r b with
    | noMatch => rw [applyRule_of_noMatch hstep]; exact Or.inl hstep
    | failed => rw [applyRule_of_failed hstep]; exact Or.inr hstep
    | spliced b2 =>
      have := parenCount_lt_of_spliced hr hstep
      omega
  | succ m ih =>
    intro b hb
    cases hstep : ruleStep r b with
    | noMatch => rw [applyRule_of_noMatch hstep]; exact Or.inl hstep
    | failed => rw [applyRule_of_failed hstep]; exact Or.inr hstep
    | spliced b2 =>
      have hlt := parenCount_lt_of_spliced hr hstep
      have heq : applyRule r b = applyRule r b2 := by
        rw [applyRule]
        have h1 : applyRuleFuel r (parenCount b + 1) b = applyRuleFuel r (parenCount b) b2 := by
          simp only [applyRuleFuel, hstep]
        rw [h1]
        exact applyRuleFuel_stable hr (parenCount b) b2 hlt
      rw [heq]
      exact ih b2 (by omega)

/-- The per-rule pass always ends in a state where its own pattern either no
longer occurs or the first occurrence is unbalanced. -/
theorem applyRule_terminal {r : Rule} (hr : insertParenFree r) (b : Buffer) :
    rTerminal r (applyRule r b).1 :=
  applyRule_terminal_aux hr (parenCount b) b le_rfl

/-! ## Pattern instances and occurrence localisation -/

/-- Whitespace-only runs. -/
def wsAll (w : Buffer) : Prop := ∀ c ∈ w, isWs c = true

/-- A full pattern instance: token, whitespace run, opening parenthesis. -/
def instOf (r : Rule) (w : Buffer) : Buffer := tokenOf r ++ (w ++ ['('])

/-- The pattern matches at the head of the list. -/
def patHere (r : Rule) (l : Buffer) : Prop :=
  ∃ w v, wsAll w ∧ l = instOf r w ++ v

/-- The head fragment of a replacement after the shared qualifier. -/
def restHead (r : Rule) : Buffer :=
  r.new_variant ++ " \x7b ".toList ++ r.field_name ++ ": ".toList

/-- The fixed head of the replacement text, before the argument. -/
def headText (r : Rule) : Buffer := qualifier ++ restHead r

/-- The replacement text is its head, the argument, and the closing brace. -/
theorem replacementText_eq (r : Rule) (arg : Buffer) :
    replacementText r arg = headText r ++ arg ++ [' ', '\x7d'] := by
  simp [replacementText, headText, restHead, List.append_assoc]

theorem matchLen_inst (r : Rule) (w z : Buffer) (hw : wsAll w) :
    matchLen r (instOf r w ++ z) = some (instOf r w).length := by
  rw [matchLen_eq_some]
  refine ⟨w, z, hw, by simp [instOf, List.append_assoc], ?_⟩
  rw [instOf]
  simp only [List.length_append, List.length_cons, List.length_nil]
  omega

theorem patHere_iff_matchLen (r : Rule) (l : Buffer) :
    patHere r l ↔ matchLen r l ≠ none := by
  constructor
  · rintro ⟨w, v, hw, rfl⟩
    rw [matchLen_inst r w v hw]
    simp
  · intro h
    cases hm : matchLen r l with
    | none => exact absurd hm h
    | some n =>
      rw [matchLen_eq_some] at hm
      obtain ⟨w, rest, hw, hdec, _⟩ := hm
      exact ⟨w, rest, hw, by rw [hdec]; simp [instOf, List.append_assoc]⟩

/-- Converse of the search characterisation: a match with nothing earlier is
what the search returns. -/
theorem search_eq_some_of (r : Rule) (b : Buffer) (q n : Nat)
    (h : matchLen r (b.drop q) = some n)
    (hmin : ∀ p < q, matchLen r (b.drop p) = none) :
    search r b = some (q, q + n) := by
  induction b generalizing q with
  | nil =>
    rw [List.drop_nil, matchLen_eq_some] at h
    obtain ⟨w, rest, _, habs, _⟩ := h
    have hlen : (0 : Nat) = (tokenOf r ++ (w ++ '(' :: rest)).length := by
      rw [← habs]
      rfl
    rw [List.length_append, tokenOf_length] at hlen
    omega
  | cons c rest ih =>
    cases q with
    | zero =>
      rw [search, searchFrom]
      rw [List.drop_zero] at h
      rw [h]
    | succ p =>
      have h0 : matchLen r (c :: rest) = none := by
        simpa using hmin 0 (Nat.succ_pos p)
      rw [search, searchFrom, h0]
      dsimp only
      rw [searchFrom_shift]
      have ihres : search r rest = some (p, p + n) :=
        ih p (by simpa using h) (fun p2 hp2 => by simpa using hmin (p2 + 1) (by omega))
      rw [show searchFrom r rest 0 = some (p, p + n) from ihres]
      simp only [Option.map_some', Option.some.injEq, Prod.mk.injEq]
      exact ⟨trivial, by omega⟩

/-- Converse of the failed-search characterisation. -/
theorem search_eq_none_of (r : Rule) (b : Buffer)
    (h : ∀ q, matchLen r (b.drop q) = none) : search r b = none := by
  induction b with
  | nil => rfl
  | cons c rest ih =>
    have h0 : matchLen r (c :: rest) = none := by simpa using h 0
    rw [search, searchFrom, h0]
    dsimp only
    rw [searchFrom_shift]
    rw [show searchFrom r rest 0 = none from ih (fun q => by simpa using h (q + 1))]
    rfl

/-- A whitespace run followed by an opening parenthesis cannot be a prefix
of text whose first non-whitespace character is something else. -/
theorem ws_paren_blocked : ∀ (v : Buffer) (c : Char) (t : Buffer),
    v.dropWhile isWs = c :: t → c ≠ '(' →
    ∀ (w z : Buffer), wsAll w → ¬ ((w ++ ['(']) <+: v ++ z) := by
  intro v
  induction v with
  | nil =>
    intro c t hdw
    simp [List.dropWhile] at hdw
  | cons d v ih =>
    intro c t hdw hc w z hw hpre
    by_cases hd : isWs d = true
    · rw [List.dropWhile_cons, if_pos hd] at hdw
      cases w with
      | nil =>
        rw [List.nil_append, List.cons_append, List.cons_prefix_cons] at hpre
        have : isWs '(' = true := hpre.1 ▸ hd
        simp [isWs] at this
      | cons a w2 =>
        rw [List.cons_append, List.cons_append, List.cons_prefix_cons] at hpre
        exact ih c t hdw hc w2 z (fun x hx => hw x (by simp [hx])) hpre.2
    · rw [List.dropWhile_cons, if_neg hd] at hdw
      obtain ⟨rfl, rfl⟩ : d = c ∧ v = t := by
        cases hdw
        exact ⟨rfl, rfl⟩
      cases w with
      | nil =>
        rw [List.nil_append, List.cons_append, List.cons_prefix_cons] at hpre
        exact hc hpre.1.symm
      | cons a w2 =>
        rw [List.cons_append, List.cons_append, List.cons_prefix_cons] at hpre
        have : isWs a = true := hw a (by simp)
        rw [hpre.1] at this
        exact hd this

/-- Splitting a pattern instance at an arbitrary point. -/
theorem inst_split (r : Rule) (w x y : Buffer) (h : instOf r w = x ++ y) :
    (∃ t1 t2, tokenOf r = t1 ++ t2 ∧ x = t1 ∧ y = t2 ++ (w ++ ['('])) ∨
    (∃ w1 w2, w = w1 ++ w2 ∧ x = tokenOf r ++ w1 ∧ y = w2 ++ ['(']) ∨
    (x = instOf r w ∧ y = []) := by
  rw [instOf] at h
  rcases List.append_eq_append_iff.mp h with ⟨a, ha1, ha2⟩ | ⟨c, hc1, hc2⟩
  · rcases List.append_eq_append_iff.mp ha2 with ⟨a2, hb1, hb2⟩ | ⟨c2, hd1, hd2⟩
    · cases a2 with
      | nil =>
        right; left
        refine ⟨a, [], by simp [hb1], ha1, ?_⟩
        simpa using hb2.symm
      | cons e t =>
        rw [List.cons_append, List.cons.injEq] at hb2
        obtain ⟨he, hnil⟩ := hb2
        obtain ⟨rfl, rfl⟩ := List.append_eq_nil.mp hnil.symm
        right; right
        refine ⟨?_, rfl⟩
        rw [ha1, hb1, ← he, instOf]
    · right; left
      exact ⟨a, c2, hd1, ha1, hd2⟩
  · left
    exact ⟨x, c, hc1, rfl, hc2⟩

/-- Can the pattern headed by `x` never begin at the head of `u` followed by
anything?  Checked within `u` alone. -/
def blocked (x u : Buffer) : Bool :=
  if x.isPrefixOf u then
    match (u.drop x.length).dropWhile isWs with
    | [] => false
    | c :: _ => decide (c ≠ '(')
  else !(u.isPrefixOf x)

theorem blocked_sound {x u : Buffer} (h : blocked x u = true) :
    ∀ (w z : Buffer), wsAll w → ¬ (x ++ (w ++ ['(']) <+: u ++ z) := by
  intro w z hw hpre
  rw [blocked] at h
  split at h
  · next hxu =>
    obtain ⟨u2, rfl⟩ := List.isPrefixOf_iff_prefix.mp hxu
    rw [List.drop_left] at h
    rw [List.append_assoc, List.prefix_append_right_inj] at hpre
    cases hdw : u2.dropWhile isWs with
    | nil =>
      rw [hdw] at h
      exact absurd h (by simp)
    | cons c t =>
      rw [hdw] at h
      have hc : c ≠ '(' := by simpa using h
      exact ws_paren_blocked u2 c t hdw hc w z hw hpre
  · next hxu =>
    have hxu2 : ¬ (x <+: u) := fun hp => hxu (List.isPrefixOf_iff_prefix.mpr hp)
    have hux : ¬ (u <+: x) := by
      intro hp
      rw [List.isPrefixOf_iff_prefix.mpr hp] at h  -- hmm isPrefixOf in h
      simp at h
    have hx : x <+: u ++ z := by
      refine List.IsPrefix.trans ?_ hpre
      exact ⟨w ++ ['('], rfl⟩
    have hu : u <+: u ++ z := List.prefix_append _ _
    rcases List.prefix_or_prefix_of_prefix hx hu with h1 | h2
    · exact hxu2 h1
    · exact hux h2

/-- No pattern token has an internal fragment that begins like the shared
qualifier: positions after the start never read `Ap`. -/
def noApSuffix (l : Buffer) : Prop :=
  ∀ i, i < l.length → 0 < i → ¬ ((l.drop i).take 2 <+: ['A', 'p'])

instance (l : Buffer) : Decidable (noApSuffix l) := by
  unfold noApSuffix
  infer_instance

theorem good_noAp_token : ∀ r ∈ transformations, noApSuffix (tokenOf r) := by decide

theorem good_noAp_head : ∀ r ∈ transformations, noApSuffix (headText r) := by decide

theorem good_tok_chars : ∀ r ∈ transformations,
    '(' ∉ tokenOf r ∧ ')' ∉ tokenOf r ∧ ' ' ∉ tokenOf r := by decide

theorem good_head_chars : ∀ r ∈ transformations,
    '(' ∉ headText r ∧ ')' ∉ headText r := by decide

theorem good_blocked_head : ∀ r ∈ transformations, ∀ r2 ∈ transformations,
    blocked r.old_variant (restHead r2) = true := by decide

theorem good_blocked_tok : ∀ r ∈ transformations, ∀ r2 ∈ transformations,
    r ≠ r2 → blocked r.old_variant r2.old_variant = true := by decide

/-- The pattern instance begins with the qualifier's first two characters. -/
theorem instOf_take_two (r : Rule) (w : Buffer) : (instOf r w).take 2 = ['A', 'p'] := by
  obtain ⟨t, ht⟩ : ∃ t, instOf r w = 'A' :: 'p' :: t := ⟨_, rfl⟩
  rw [ht]
  rfl

/-- A whitespace run and parenthesis cannot continue into qualified text. -/
theorem ws_no_qual (u2 w z : Buffer) (hw : wsAll w) :
    ¬ ((w ++ ['(']) <+: (qualifier ++ u2) ++ z) := by
  obtain ⟨t, ht⟩ : ∃ t, qualifier ++ u2 = 'A' :: t := ⟨_, rfl⟩
  have hdw : (qualifier ++ u2).dropWhile isWs = 'A' :: t := by
    rw [ht, List.dropWhile_cons]
    simp [isWs]
  exact ws_paren_blocked (qualifier ++ u2) 'A' t hdw (by decide) w z hw

/-- A whitespace run and parenthesis cannot continue at a non-whitespace,
non-parenthesis character. -/
theorem ws_paren_no_cons (c : Char) (hcws : isWs c = false) (hcp : c ≠ '(')
    (w z : Buffer) (hw : wsAll w) : ¬ ((w ++ ['(']) <+: c :: z) := by
  have hdw : ([c] : Buffer).dropWhile isWs = c :: [] := by
    simp [List.dropWhile_cons, hcws]
  have := ws_paren_blocked [c] c [] hdw hcp w z hw
  simpa using this

/-- A nonempty trailing fragment of a pattern instance cannot continue at
the head of qualified text (a token or a replacement head) whose post-
qualifier part blocks the trigger. -/
theorem no_cross_qual {r : Rule} {u2 : Buffer}
    (hap : noApSuffix (tokenOf r))
    (hbl : blocked r.old_variant u2 = true)
    {w x y : Buffer} (hw : wsAll w) (hsplit : instOf r w = x ++ y) (hy : y ≠ [])
    (z : Buffer) : ¬ (y <+: (qualifier ++ u2) ++ z) := by
  intro hpre
  rcases inst_split r w x y hsplit with ⟨t1, t2, htok, hx, hyeq⟩ |
    ⟨w1, w2, hww, hx, hyeq⟩ | ⟨_, hynil⟩
  · by_cases ht1 : t1 = []
    · subst ht1
      have htok2 : tokenOf r = t2 := by simpa using htok
      rw [hyeq, ← htok2, tokenOf] at hpre
      have hpre2 : qualifier ++ (r.old_variant ++ (w ++ ['('])) <+:
          qualifier ++ (u2 ++ z) := by
        simpa [List.append_assoc] using hpre
      rw [List.prefix_append_right_inj] at hpre2
      exact blocked_sound hbl w z hw hpre2
    · by_cases ht2 : t2 = []
      · subst ht2
        rw [hyeq, List.nil_append] at hpre
        exact ws_no_qual u2 w z hw hpre
      · have ht2eq : t2 = (tokenOf r).drop t1.length := by
          rw [htok, List.drop_left]
        have hlt : t1.length < (tokenOf r).length := by
          rw [htok, List.length_append]
          have : 0 < t2.length := List.length_pos.mpr ht2
          omega
        have h0 : 0 < t1.length := List.length_pos.mpr ht1
        have ht2p : t2 <+: (qualifier ++ u2) ++ z := by
          refine List.IsPrefix.trans ?_ hpre
          rw [hyeq]
          exact ⟨w ++ ['('], by simp [List.append_assoc]⟩
        have htake : t2.take 2 <+: ((qualifier ++ u2) ++ z).take 2 := ht2p.take 2
        have hq2 : ((qualifier ++ u2) ++ z).take 2 = ['A', 'p'] := by
          obtain ⟨t, ht⟩ : ∃ t, (qualifier ++ u2) ++ z = 'A' :: 'p' :: t := ⟨_, rfl⟩
          rw [ht]
          rfl
        rw [hq2] at htake
        rw [ht2eq] at htake
        exact hap t1.length hlt h0 htake
  · rw [hyeq] at hpre
    have hw2 : wsAll w2 := fun c hc => hw c (by rw [hww]; exact List.mem_append_right _ hc)
    exact ws_no_qual u2 w2 z hw2 hpre
  · exact hy hynil

/-- A nonempty trailing fragment of a pattern instance cannot continue at a
close parenthesis. -/
theorem no_cross_close {r : Rule} (hcl : ')' ∉ tokenOf r)
    {w x y : Buffer} (hw : wsAll w) (hsplit : instOf r w = x ++ y) (hy : y ≠ [])
    (z : Buffer) : ¬ (y <+: ')' :: z) := by
  intro hpre
  rcases inst_split r w x y hsplit with ⟨t1, t2, htok, hx, hyeq⟩ |
    ⟨w1, w2, hww, hx, hyeq⟩ | ⟨_, hynil⟩
  · cases t2 with
    | nil =>
      rw [hyeq, List.nil_append] at hpre
      exact ws_paren_no_cons ')' (by decide) (by decide) w z hw hpre
    | cons e t2 =>
      rw [hyeq, List.cons_append, List.cons_prefix_cons] at hpre
      have he : e ∈ tokenOf r := by
        rw [htok]
        exact List.mem_append_right _ (List.mem_cons_self _ _)
      rw [hpre.1] at he
      exact hcl he
  · rw [hyeq] at hpre
    have hw2 : wsAll w2 := fun c hc => hw c (by rw [hww]; exact List.mem_append_right _ hc)
    exact ws_paren_no_cons ')' (by decide) (by decide) w2 z hw2 hpre
  · exact hy hynil

/-- A nonempty trailing fragment of a pattern instance cannot continue at
the closing-brace text of a replacement. -/
theorem no_cross_brace {r : Rule} (hsp : ' ' ∉ tokenOf r)
    {w x y : Buffer} (hw : wsAll w) (hsplit : instOf r w = x ++ y) (hy : y ≠ [])
    (z : Buffer) : ¬ (y <+: ' ' :: '\x7d' :: z) := by
  intro hpre
  rcases inst_split r w x y hsplit with ⟨t1, t2, htok, hx, hyeq⟩ |
    ⟨w1, w2, hww, hx, hyeq⟩ | ⟨_, hynil⟩
  · cases t2 with
    | nil =>
      rw [hyeq, List.nil_append] at hpre
      have hdw : ([' ', '\x7d'] : Buffer).dropWhile isWs = '\x7d' :: [] := by decide
      have := ws_paren_blocked [' ', '\x7d'] '\x7d' [] hdw (by decide) w z hw
      exact this (by simpa using hpre)
    | cons e t2 =>
      rw [hyeq, List.cons_append, List.cons_prefix_cons] at hpre
      have he : e ∈ tokenOf r := by
        rw [htok]
        exact List.mem_append_right _ (List.mem_cons_self _ _)
      rw [hpre.1] at he
      exact hsp he
  · rw [hyeq] at hpre
    have hw2 : wsAll w2 := fun c hc => hw c (by rw [hww]; exact List.mem_append_right _ hc)
    have hdw : ([' ', '\x7d'] : Buffer).dropWhile isWs = '\x7d' :: [] := by decide
    have := ws_paren_blocked [' ', '\x7d'] '\x7d' [] hdw (by decide) w2 z hw2
    exact this (by simpa using hpre)
  · exact hy hynil

/-- The pattern starts with an `A`. -/
theorem patHere_head {r : Rule} {l : Buffer} (h : patHere r l) : ∃ t, l = 'A' :: t := by
  obtain ⟨w, v, hw, rfl⟩ := h
  obtain ⟨t, ht⟩ : ∃ t, instOf r w = 'A' :: t := ⟨_, rfl⟩
  exact ⟨t ++ v, by rw [ht]; rfl⟩

/-- No match can start at a character other than `A`. -/
theorem no_pat_at_cons {r : Rule} {c : Char} {l : Buffer} (hc : c ≠ 'A') :
    ¬ patHere r (c :: l) := by
  intro h
  obtain ⟨t, ht⟩ := patHere_head h
  rw [List.cons.injEq] at ht
  exact hc ht.1

/-- No match can start strictly inside a segment that never reads `Ap`
after its start. -/
theorem no_pat_mid {u : Buffer} (hap : noApSuffix u) (r : Rule) (i : Nat)
    (h0 : 0 < i) (hi : i < u.length) (z : Buffer) :
    ¬ patHere r (u.drop i ++ z) := by
  intro h
  obtain ⟨w, v, hw, heq⟩ := h
  have h1 : u.drop i <+: u.drop i ++ z := List.prefix_append _ _
  have h2 : instOf r w <+: u.drop i ++ z := by
    rw [heq]
    exact List.prefix_append _ _
  have hAp : (u.drop i).take 2 <+: ['A', 'p'] := by
    rcases List.prefix_or_prefix_of_prefix h1 h2 with hd | hd
    · have := hd.take 2
      rw [instOf_take_two] at this
      exact this
    · have := hd.take 2
      rw [instOf_take_two] at this
      have hlen : ((u.drop i).take 2).length ≤ (['A', 'p'] : Buffer).length := by
        simp [List.length_take]
      have heqt : ['A', 'p'] = (u.drop i).take 2 := this.eq_of_length_le hlen
      rw [← heqt]
  exact hap i hi h0 hAp

/-- No match can start inside a whitespace run. -/
theorem no_pat_ws {w2 : Buffer} (hw2 : wsAll w2) (r : Rule) (i : Nat) (z : Buffer)
    (hi : i < w2.length) : ¬ patHere r (w2.drop i ++ z) := by
  intro h
  obtain ⟨t, ht⟩ := patHere_head h
  cases hd : w2.drop i with
  | nil =>
    rw [List.drop_eq_nil_iff] at hd
    omega
  | cons c rest =>
    have hc : c ∈ w2 := by
      have : c ∈ w2.drop i := by
        rw [hd]
        exact List.mem_cons_self _ _
      exact List.drop_subset _ _ this
    have hws := hw2 c hc
    rw [hd, List.cons_append, List.cons.injEq] at ht
    rw [ht.1] at hws
    simp [isWs] at hws

theorem instOf_length_pos (r : Rule) (w : Buffer) : 0 < (instOf r w).length := by
  rw [instOf, List.length_append, tokenOf_length]
  omega

/-- Splitting a match at the head of a two-segment buffer: when no instance
fragment can continue into the second segment, the instance sits inside the
first. -/
theorem localize_at {r : Rule} {seg REST : Buffer}
    (hcross : ∀ (w x y : Buffer), wsAll w → instOf r w = x ++ y → y ≠ [] →
      ¬ (y <+: REST))
    (h : patHere r (seg ++ REST)) :
    ∃ w v, wsAll w ∧ seg = instOf r w ++ v := by
  obtain ⟨w, v, hw, heq⟩ := h
  rcases List.append_eq_append_iff.mp heq with ⟨a, ha1, ha2⟩ | ⟨c, hc1, hc2⟩
  · cases a with
    | nil =>
      refine ⟨w, [], hw, ?_⟩
      rw [List.append_nil] at ha1 ⊢
      exact ha1.symm
    | cons e t =>
      exact absurd ⟨v, ha2.symm⟩ (hcross w seg (e :: t) hw ha1 (by simp))
  · exact ⟨w, c, hw, hc1⟩

/-- Localisation of matches in a spliced buffer: every occurrence of a
rule's pattern in `P ++ headText r2 ++ A ++ " }" ++ S` lies entirely inside
`P`, inside `A`, or inside `S`, at the corresponding offset. -/
theorem zoneB2 {r r2 : Rule} {P A S : Buffer}
    (hap : noApSuffix (tokenOf r)) (hapH : noApSuffix (headText r2))
    (hbl : blocked r.old_variant (restHead r2) = true)
    (hsp : ' ' ∉ tokenOf r) :
    ∀ q, patHere r ((P ++ (headText r2 ++ (A ++ (' ' :: '\x7d' :: S)))).drop q) →
      (q < P.length ∧ ∃ w v, wsAll w ∧ P.drop q = instOf r w ++ v) ∨
      (∃ j, j < A.length ∧ q = P.length + (headText r2).length + j ∧
        ∃ w v, wsAll w ∧ A.drop j = instOf r w ++ v) ∨
      (∃ j, q = P.length + (headText r2).length + A.length + 2 + j ∧
        patHere r (S.drop j)) := by
  intro q hq
  rcases Nat.lt_or_ge q (P.length + 1) with h1 | h1
  · -- q ≤ |P|
    have hle : q ≤ P.length := by omega
    rw [List.drop_append_of_le_length hle] at hq
    have hloc := localize_at ?cross hq
    case cross =>
      intro w x y hw hs hy hp
      refine no_cross_qual hap hbl hw hs hy (A ++ (' ' :: '\x7d' :: S)) ?_
      rw [headText] at hp
      simpa [List.append_assoc] using hp
    obtain ⟨w, v, hw, hPd⟩ := hloc
    left
    refine ⟨?_, w, v, hw, hPd⟩
    by_contra hge
    push_neg at hge
    have : P.drop q = [] := List.drop_eq_nil_of_le hge
    rw [this] at hPd
    have := congrArg List.length hPd
    simp at this
    have := instOf_length_pos r w
    omega
  · rcases Nat.lt_or_ge q (P.length + (headText r2).length) with h2 | h2
    · -- strictly inside the replacement head
      obtain ⟨i, rfl⟩ : ∃ i, q = P.length + i := ⟨q - P.length, by omega⟩
      rw [List.drop_append] at hq
      have hi1 : 0 < i := by omega
      have hi2 : i < (headText r2).length := by omega
      rw [List.drop_append_of_le_length (by omega)] at hq
      exact absurd hq (no_pat_mid hapH r i hi1 hi2 _)
    · rcases Nat.lt_or_ge q (P.length + (headText r2).length + A.length + 1) with h3 | h3
      · -- in the argument region
        obtain ⟨j, rfl⟩ : ∃ j, q = P.length + ((headText r2).length + j) :=
          ⟨q - P.length - (headText r2).length, by omega⟩
        rw [List.drop_append, List.drop_append] at hq
        have hj : j ≤ A.length := by omega
        rw [List.drop_append_of_le_length hj] at hq
        rcases Nat.lt_or_ge j A.length with hja | hja
        · have hloc := localize_at ?cross2 hq
          case cross2 =>
            intro w x y hw hs hy hp
            exact no_cross_brace hsp hw hs hy S hp
          obtain ⟨w, v, hw, hAd⟩ := hloc
          right; left
          exact ⟨j, hja, by omega, w, v, hw, hAd⟩
        · have : A.drop j = [] := List.drop_eq_nil_of_le hja
          rw [this, List.nil_append] at hq
          exact absurd hq (no_pat_at_cons (by decide))
      · rcases Nat.lt_or_ge q (P.length + (headText r2).length + A.length + 2) with h4 | h4
        · -- at the closing brace
          obtain rfl : q = P.length + ((headText r2).length + (A.length + 1)) := by omega
          rw [List.drop_append, List.drop_append, List.drop_append] at hq
          have hdr1 : (' ' :: '\x7d' :: S).drop 1 = '\x7d' :: S := rfl
          rw [hdr1] at hq
          exact absurd hq (no_pat_at_cons (by decide))
        · -- in the suffix
          obtain ⟨j, rfl⟩ :
              ∃ j, q = P.length + ((headText r2).length + (A.length + (2 + j))) :=
            ⟨q - P.length - (headText r2).length - A.length - 2, by omega⟩
          rw [List.drop_append, List.drop_append, List.drop_append] at hq
          have hdr : (' ' :: '\x7d' :: S).drop (2 + j) = S.drop j := by
            rw [show 2 + j = j + 1 + 1 from by omega]
            rfl
          rw [hdr] at hq
          right; right
          exact ⟨j, by omega, hq⟩

/-- Localisation of matches in the original buffer around a located
occurrence: every occurrence of a different rule's pattern lies entirely
inside `P`, inside `A`, or inside `S`. -/
theorem zoneB {r r2 : Rule} {P w2 A S : Buffer}
    (hap : noApSuffix (tokenOf r)) (hapT : noApSuffix (tokenOf r2))
    (hblT : blocked r.old_variant r2.old_variant = true)
    (hcl : ')' ∉ tokenOf r) (hw2 : wsAll w2) :
    ∀ q, patHere r ((P ++ (instOf r2 w2 ++ (A ++ (')' :: S)))).drop q) →
      (q < P.length ∧ ∃ w v, wsAll w ∧ P.drop q = instOf r w ++ v) ∨
      (∃ j, j < A.length ∧ q = P.length + (instOf r2 w2).length + j ∧
        ∃ w v, wsAll w ∧ A.drop j = instOf r w ++ v) ∨
      (∃ j, q = P.length + (instOf r2 w2).length + A.length + 1 + j ∧
        patHere r (S.drop j)) := by
  have hL2 : (instOf r2 w2).length = (tokenOf r2).length + w2.length + 1 := by
    rw [instOf]
    simp only [List.length_append, List.length_cons, List.length_nil]
    omega
  have hshape : instOf r2 w2 ++ (A ++ (')' :: S)) =
      tokenOf r2 ++ (w2 ++ ('(' :: (A ++ (')' :: S)))) := by
    simp [instOf, List.append_assoc]
  intro q hq
  rcases Nat.lt_or_ge q (P.length + 1) with h1 | h1
  · have hle : q ≤ P.length := by omega
    rw [List.drop_append_of_le_length hle] at hq
    have hloc := localize_at ?cross hq
    case cross =>
      intro w x y hw hs hy hp
      refine no_cross_qual hap hblT hw hs hy
        ((w2 ++ ['(']) ++ (A ++ (')' :: S))) ?_
      have : instOf r2 w2 ++ (A ++ (')' :: S)) =
          (qualifier ++ r2.old_variant) ++ ((w2 ++ ['(']) ++ (A ++ (')' :: S))) := by
        simp [instOf, tokenOf, List.append_assoc]
      rw [this] at hp
      exact hp
    obtain ⟨w, v, hw, hPd⟩ := hloc
    left
    refine ⟨?_, w, v, hw, hPd⟩
    by_contra hge
    push_neg at hge
    have hnil : P.drop q = [] := List.drop_eq_nil_of_le hge
    rw [hnil] at hPd
    have := congrArg List.length hPd
    simp at this
    have := instOf_length_pos r w
    omega
  · rcases Nat.lt_or_ge q (P.length + (tokenOf r2).length) with h2 | h2
    · obtain ⟨i, rfl⟩ : ∃ i, q = P.length + i := ⟨q - P.length, by omega⟩
      rw [List.drop_append, hshape] at hq
      rw [List.drop_append_of_le_length (by omega)] at hq
      exact absurd hq (no_pat_mid hapT r i (by omega) (by omega) _)
    · rcases Nat.lt_or_ge q (P.length + (tokenOf r2).length + w2.length) with h3 | h3
      · obtain ⟨i, rfl⟩ :
            ∃ i, q = P.length + ((tokenOf r2).length + i) :=
          ⟨q - P.length - (tokenOf r2).length, by omega⟩
        rw [List.drop_append, hshape, List.drop_append] at hq
        rw [List.drop_append_of_le_length (by omega)] at hq
        exact absurd hq (no_pat_ws hw2 r i _ (by omega))
      · rcases Nat.lt_or_ge q
          (P.length + (tokenOf r2).length + w2.length + 1) with h4 | h4
        · obtain rfl : q = P.length + ((tokenOf r2).length + w2.length) := by omega
          rw [List.drop_append, hshape, List.drop_append] at hq
          rw [List.drop_left] at hq
          exact absurd hq (no_pat_at_cons (by decide))
        · rcases Nat.lt_or_ge q
            (P.length + (instOf r2 w2).length + A.length + 1) with h5 | h5
          · obtain ⟨j, rfl⟩ :
                ∃ j, q = P.length + ((instOf r2 w2).length + j) :=
              ⟨q - P.length - (instOf r2 w2).length, by omega⟩
            rw [List.drop_append, List.drop_append] at hq
            have hj : j ≤ A.length := by omega
            rw [List.drop_append_of_le_length hj] at hq
            rcases Nat.lt_or_ge j A.length with hja | hja
            · have hloc := localize_at ?cross2 hq
              case cross2 =>
                intro w x y hw hs hy hp
                exact no_cross_close hcl hw hs hy S hp
              obtain ⟨w, v, hw, hAd⟩ := hloc
              right; left
              exact ⟨j, hja, by omega, w, v, hw, hAd⟩
            · have hnil : A.drop j = [] := List.drop_eq_nil_of_le hja
              rw [hnil, List.nil_append] at hq
              exact absurd hq (no_pat_at_cons (by decide))
          · obtain ⟨j, rfl⟩ :
                ∃ j, q = P.length + ((instOf r2 w2).length + (A.length + (1 + j))) :=
              ⟨q - P.length - (instOf r2 w2).length - A.length - 1, by omega⟩
            rw [List.drop_append, List.drop_append, List.drop_append] at hq
            have hdr : (')' :: S).drop (1 + j) = S.drop j := by
              rw [show 1 + j = j + 1 from by omega]
              rfl
            rw [hdr] at hq
            right; right
            exact ⟨j, by omega, hq⟩

/-- A list with no parentheses has zero balance. -/
theorem delta_of_no_paren {l : Buffer} (h1 : '(' ∉ l) (h2 : ')' ∉ l) :
    delta l = 0 := by
  simp [delta, List.count_eq_zero_of_not_mem, h1, h2]

/-- Whitespace runs contain no parentheses. -/
theorem ws_no_paren {w : Buffer} (hw : wsAll w) : '(' ∉ w ∧ ')' ∉ w := by
  constructor <;> intro hmem <;> have := hw _ hmem <;> simp [isWs] at this

theorem allPos_of_nonneg {d : Int} {l : Buffer}
    (h : ∀ k, k ≤ l.length → 0 ≤ delta (l.take k)) (hd : 0 < d) : allPos d l :=
  fun k hk => by have := h k hk; omega

theorem nonneg_of_allPos_one {l : Buffer} (h : allPos 1 l) :
    ∀ k, k ≤ l.length → 0 ≤ delta (l.take k) := fun k hk => by
  have := h k hk
  omega

/-- Transport of a failing scan across a splice located after the failing
occurrence: the matched span's frame parentheses are removed and the
balanced argument is kept, so the count still never reaches zero. -/
theorem transport_allPos_P {r2 : Rule} {x w2 A S : Buffer}
    (hw2 : wsAll w2)
    (htc : '(' ∉ tokenOf r2 ∧ ')' ∉ tokenOf r2)
    (hhc : '(' ∉ headText r2 ∧ ')' ∉ headText r2)
    (hA : allPos 1 A) (hdA : delta A = 0)
    (h : allPos 1 (x ++ (instOf r2 w2 ++ (A ++ (')' :: S))))) :
    allPos 1 (x ++ (headText r2 ++ (A ++ (' ' :: '\x7d' :: S)))) := by
  rw [allPos_append] at h
  obtain ⟨hx, h⟩ := h
  rw [allPos_append] at h
  obtain ⟨hinst, h⟩ := h
  rw [allPos_append] at h
  obtain ⟨hA2, h⟩ := h
  rw [allPos_cons] at h
  obtain ⟨hpos1, hS⟩ := h
  have hdw2 := ws_no_paren hw2
  have hdinst : delta (instOf r2 w2) = 1 := by
    rw [instOf, delta_append, delta_append,
      delta_of_no_paren htc.1 htc.2, delta_of_no_paren hdw2.1 hdw2.2]
    rfl
  have hc : (0 : Int) < 1 + delta x := allPos_pos hinst
  rw [allPos_append]
  refine ⟨hx, ?_⟩
  rw [allPos_append]
  constructor
  · exact allPos_of_no_paren hhc.1 hhc.2 hc
  · rw [delta_of_no_paren hhc.1 hhc.2, add_zero, allPos_append]
    constructor
    · exact allPos_of_nonneg (nonneg_of_allPos_one hA) hc
    · rw [hdA, add_zero, allPos_cons, allPos_cons]
      have hch1 : chDelta ' ' = 0 := rfl
      have hch2 : chDelta '\x7d' = 0 := rfl
      rw [hch1, hch2, add_zero, add_zero]
      refine ⟨hc, hc, ?_⟩
      have hch3 : chDelta ')' = -1 := rfl
      rw [hch3] at hS
      rw [hdinst] at hS hpos1
      refine allPos_mono ?_ hS
      omega

/-- Transport of a failing scan across a splice whose argument contains the
failing occurrence: the frame's close parenthesis is removed, which only
raises the running count. -/
theorem transport_allPos_A {x S : Buffer}
    (h : allPos 1 (x ++ (')' :: S))) : allPos 1 (x ++ (' ' :: '\x7d' :: S)) := by
  rw [allPos_append] at h
  obtain ⟨hx, h⟩ := h
  rw [allPos_cons] at h
  obtain ⟨hpos, hS⟩ := h
  have hch3 : chDelta ')' = -1 := rfl
  rw [hch3] at hS
  rw [allPos_append]
  refine ⟨hx, ?_⟩
  rw [allPos_cons, allPos_cons]
  have hch1 : chDelta ' ' = 0 := rfl
  have hch2 : chDelta '\x7d' = 0 := rfl
  rw [hch1, hch2, add_zero, add_zero]
  refine ⟨hpos, hpos, allPos_mono ?_ hS⟩
  omega

/-- Drop computations in a four-segment buffer. -/
theorem drop3_mid {P X A T : Buffer} {j : Nat} (hj : j ≤ A.length) :
    (P ++ (X ++ (A ++ T))).drop (P.length + (X.length + j)) = A.drop j ++ T := by
  rw [List.drop_append, List.drop_append, List.drop_append_of_le_length hj]

theorem drop3_S {P X A S : Buffer} {c1 : Char} {j : Nat} :
    (P ++ (X ++ (A ++ (c1 :: S)))).drop
      (P.length + (X.length + (A.length + (1 + j)))) = S.drop j := by
  rw [List.drop_append, List.drop_append, List.drop_append]
  rw [show 1 + j = j + 1 from by omega]
  rfl

theorem drop3_S2 {P X A S : Buffer} {c1 c2 : Char} {j : Nat} :
    (P ++ (X ++ (A ++ (c1 :: c2 :: S)))).drop
      (P.length + (X.length + (A.length + (2 + j)))) = S.drop j := by
  rw [List.drop_append, List.drop_append, List.drop_append]
  rw [show 2 + j = j + 1 + 1 from by omega]
  rfl

/-- A localized instance inside a segment lifts to a match of the whole. -/
theorem pat_lift_seg {r : Rule} {A tail : Buffer} {j : Nat}
    {w v : Buffer} (hw : wsAll w) (hAd : A.drop j = instOf r w ++ v) :
    patHere r (A.drop j ++ tail) := by
  rw [hAd]
  exact ⟨w, v ++ tail, hw, by simp [List.append_assoc]⟩

theorem scanClose_none_one (l : Buffer) : scanClose l 1 = none ↔ allPos 1 l := by
  have := scanClose_none_iff l 1 le_rfl
  simpa using this

/-- Core preservation: once a rule's loop can make no further progress on a
buffer, a splice performed by any rule of the table leaves it that way.  The
splice neither creates a new occurrence of the first rule's pattern, nor
removes nor unblocks its first occurrence. -/
theorem step_terminal_preserved {r r2 : Rule}
    (hap : noApSuffix (tokenOf r)) (hapT2 : noApSuffix (tokenOf r2))
    (hapH2 : noApSuffix (headText r2))
    (hblH : blocked r.old_variant (restHead r2) = true)
    (hblT : r ≠ r2 → blocked r.old_variant r2.old_variant = true)
    (hclr : ')' ∉ tokenOf r) (hspr : ' ' ∉ tokenOf r)
    (htc2 : '(' ∉ tokenOf r2 ∧ ')' ∉ tokenOf r2)
    (hhc2 : '(' ∉ headText r2 ∧ ')' ∉ headText r2)
    {b b2 : Buffer}
    (hterm : rTerminal r b) (hstep : ruleStep r2 b = .spliced b2) :
    rTerminal r b2 := by
  by_cases hrr : r = r2
  · subst hrr
    cases hterm with
    | inl h => rw [h] at hstep; exact absurd hstep (by simp)
    | inr h => rw [h] at hstep; exact absurd hstep (by simp)
  have hblT2 := hblT hrr
  obtain ⟨P, w2, A, S, hw2, hb, hb2, hdA, hApos, _⟩ :=
    ruleStep_spliced_decomp r2 b b2 hstep
  have hbz : b = P ++ (instOf r2 w2 ++ (A ++ (')' :: S))) := by
    rw [hb]
    simp [instOf, List.append_assoc]
  have hb2z : b2 = P ++ (headText r2 ++ (A ++ (' ' :: '\x7d' :: S))) := by
    rw [hb2, replacementText_eq]
    simp [List.append_assoc]
  -- drop-shape computations for both buffers
  have hdropPb : ∀ q, q ≤ P.length →
      b.drop q = P.drop q ++ (instOf r2 w2 ++ (A ++ (')' :: S))) := by
    intro q hqle
    rw [hbz]
    exact List.drop_append_of_le_length hqle
  have hdropAb : ∀ j, j ≤ A.length →
      b.drop (P.length + ((instOf r2 w2).length + j)) = A.drop j ++ (')' :: S) := by
    intro j hjle
    rw [hbz]
    exact drop3_mid hjle
  have hdropSb : ∀ j,
      b.drop (P.length + ((instOf r2 w2).length + (A.length + (1 + j)))) = S.drop j := by
    intro j
    rw [hbz]
    exact drop3_S
  have hdropPb2 : ∀ q, q ≤ P.length →
      b2.drop q = P.drop q ++ (headText r2 ++ (A ++ (' ' :: '\x7d' :: S))) := by
    intro q hqle
    rw [hb2z]
    exact List.drop_append_of_le_length hqle
  have hdropAb2 : ∀ j, j ≤ A.length →
      b2.drop (P.length + ((headText r2).length + j)) =
        A.drop j ++ (' ' :: '\x7d' :: S) := by
    intro j hjle
    rw [hb2z]
    exact drop3_mid hjle
  have hdropSb2 : ∀ j,
      b2.drop (P.length + ((headText r2).length + (A.length + (2 + j)))) = S.drop j := by
    intro j
    rw [hb2z]
    exact drop3_S2
  -- building a match of `b` from each zone of a match of `b2`
  have hmkP : ∀ q, q < P.length →
      (∃ w v, wsAll w ∧ P.drop q = instOf r w ++ v) →
      matchLen r (b.drop q) ≠ none := by
    intro q hq ⟨w, v, hw, hPd⟩
    rw [← patHere_iff_matchLen, hdropPb q (le_of_lt hq)]
    exact pat_lift_seg hw hPd
  have hmkA : ∀ j, j < A.length →
      (∃ w v, wsAll w ∧ A.drop j = instOf r w ++ v) →
      matchLen r (b.drop (P.length + ((instOf r2 w2).length + j))) ≠ none := by
    intro j hj ⟨w, v, hw, hAd⟩
    rw [← patHere_iff_matchLen, hdropAb j (le_of_lt hj)]
    exact pat_lift_seg hw hAd
  have hmkS : ∀ j, patHere r (S.drop j) →
      matchLen r (b.drop (P.length + ((instOf r2 w2).length + (A.length + (1 + j))))) ≠
        none := by
    intro j hS
    rw [← patHere_iff_matchLen, hdropSb j]
    exact hS
  cases hterm with
  | inl hnm =>
    -- no occurrence in the original buffer, hence none in the spliced one
    have hnone := search_none_spec r b (ruleStep_noMatch_inv r b hnm)
    left
    apply ruleStep_of_search_none
    apply search_eq_none_of
    intro q
    by_contra hsome
    have hpat : patHere r (b2.drop q) := (patHere_iff_matchLen r _).mpr hsome
    rw [hb2z] at hpat
    rcases zoneB2 hap hapH2 hblH hspr q hpat with
      ⟨hq, hloc⟩ | ⟨j, hj, hqe, hloc⟩ | ⟨j, hqe, hS⟩
    · exact hmkP q hq hloc (hnone q)
    · exact hmkA j hj hloc (hnone _)
    · exact hmkS j hS (hnone _)
  | inr hfl =>
    obtain ⟨s, e0, hsearch, hscan⟩ := ruleStep_failed_inv r b hfl
    obtain ⟨n0, hm0, he0, hminb⟩ := search_some_spec r b s e0 hsearch
    have hpat : patHere r (b.drop s) := by
      rw [patHere_iff_matchLen, hm0]
      simp
    rw [hbz] at hpat
    rcases zoneB hap hapT2 hblT2 hclr hw2 s hpat with
      ⟨hq, w, v, hw, hPd⟩ | ⟨j, hj, hqe, w, v, hw, hAd⟩ | ⟨j, hqe, hS⟩
    · -- failing first occurrence inside the unchanged prefix
      have hbq : b.drop s =
          instOf r w ++ (v ++ (instOf r2 w2 ++ (A ++ (')' :: S)))) := by
        rw [hdropPb s (le_of_lt hq), hPd]
        simp [List.append_assoc]
      have hmval : matchLen r (b.drop s) = some (instOf r w).length := by
        rw [hbq]
        exact matchLen_inst r w _ hw
      have hn0 : n0 = (instOf r w).length := Option.some.inj (hm0.symm.trans hmval)
      have htail : b.drop e0 = v ++ (instOf r2 w2 ++ (A ++ (')' :: S))) := by
        rw [he0, hn0, ← List.drop_drop, hbq, List.drop_left]
      rw [htail] at hscan
      have hfail1 := (scanClose_none_one _).mp hscan
      have hfail2 : allPos 1 (v ++ (headText r2 ++ (A ++ (' ' :: '\x7d' :: S)))) :=
        transport_allPos_P hw2 htc2 hhc2 hApos hdA hfail1
      have hb2q : b2.drop s =
          instOf r w ++ (v ++ (headText r2 ++ (A ++ (' ' :: '\x7d' :: S)))) := by
        rw [hdropPb2 s (le_of_lt hq), hPd]
        simp [List.append_assoc]
      have hmin2 : ∀ p, p < s → matchLen r (b2.drop p) = none := by
        intro p hp
        by_contra hsome
        have hpp : patHere r (b2.drop p) := (patHere_iff_matchLen r _).mpr hsome
        rw [hb2z] at hpp
        rcases zoneB2 hap hapH2 hblH hspr p hpp with
          ⟨hq3, hloc3⟩ | ⟨j3, hj3, hqe3, hloc3⟩ | ⟨j3, hqe3, hS3⟩
        · exact hmkP p hq3 hloc3 (hminb p hp)
        · omega
        · omega
      have hsearch2 : search r b2 = some (s, s + (instOf r w).length) := by
        apply search_eq_some_of
        · rw [hb2q]
          exact matchLen_inst r w _ hw
        · exact hmin2
      right
      apply ruleStep_of_scan_none hsearch2
      have hb2tail : b2.drop (s + (instOf r w).length) =
          v ++ (headText r2 ++ (A ++ (' ' :: '\x7d' :: S))) := by
        rw [← List.drop_drop, hb2q, List.drop_left]
      rw [hb2tail]
      exact (scanClose_none_one _).mpr hfail2
    · -- failing first occurrence inside the preserved argument
      have hsform : s = P.length + ((instOf r2 w2).length + j) := by omega
      have hbq : b.drop s = instOf r w ++ (v ++ (')' :: S)) := by
        rw [hsform, hdropAb j (le_of_lt hj), hAd]
        simp [List.append_assoc]
      have hmval : matchLen r (b.drop s) = some (instOf r w).length := by
        rw [hbq]
        exact matchLen_inst r w _ hw
      have hn0 : n0 = (instOf r w).length := Option.some.inj (hm0.symm.trans hmval)
      have htail : b.drop e0 = v ++ (')' :: S) := by
        rw [he0, hn0, ← List.drop_drop, hbq, List.drop_left]
      rw [htail] at hscan
      have hfail1 := (scanClose_none_one _).mp hscan
      have hfail2 : allPos 1 (v ++ (' ' :: '\x7d' :: S)) := transport_allPos_A hfail1
      have hb2q : b2.drop (P.length + ((headText r2).length + j)) =
          instOf r w ++ (v ++ (' ' :: '\x7d' :: S)) := by
        rw [hdropAb2 j (le_of_lt hj), hAd]
        simp [List.append_assoc]
      have hmin2 : ∀ p, p < P.length + ((headText r2).length + j) →
          matchLen r (b2.drop p) = none := by
        intro p hp
        by_contra hsome
        have hpp : patHere r (b2.drop p) := (patHere_iff_matchLen r _).mpr hsome
        rw [hb2z] at hpp
        rcases zoneB2 hap hapH2 hblH hspr p hpp with
          ⟨hq3, hloc3⟩ | ⟨j3, hj3, hqe3, hloc3⟩ | ⟨j3, hqe3, hS3⟩
        · exact hmkP p hq3 hloc3 (hminb p (by omega))
        · have hj3j : j3 < j := by omega
          exact hmkA j3 hj3 hloc3 (hminb _ (by omega))
        · omega
      have hsearch2 : search r b2 = some (P.length + ((headText r2).length + j),
          P.length + ((headText r2).length + j) + (instOf r w).length) := by
        apply search_eq_some_of
        · rw [hb2q]
          exact matchLen_inst r w _ hw
        · exact hmin2
      right
      apply ruleStep_of_scan_none hsearch2
      have hb2tail : b2.drop (P.length + ((headText r2).length + j) +
          (instOf r w).length) = v ++ (' ' :: '\x7d' :: S) := by
        rw [← List.drop_drop, hb2q, List.drop_left]
      rw [hb2tail]
      exact (scanClose_none_one _).mpr hfail2
    · -- failing first occurrence inside the unchanged suffix
      have hsform : s = P.length + ((instOf r2 w2).length + (A.length + (1 + j))) := by
        omega
      have hbq : b.drop s = S.drop j := by
        rw [hsform, hdropSb j]
      rw [hbq] at hm0
      have htail : b.drop e0 = (S.drop j).drop n0 := by
        rw [he0, ← List.drop_drop, hbq]
      rw [htail] at hscan
      have hb2q : b2.drop (P.length + ((headText r2).length + (A.length + (2 + j)))) =
          S.drop j := by
        rw [hdropSb2 j]
      have hmin2 : ∀ p, p < P.length + ((headText r2).length + (A.length + (2 + j))) →
          matchLen r (b2.drop p) = none := by
        intro p hp
        by_contra hsome
        have hpp : patHere r (b2.drop p) := (patHere_iff_matchLen r _).mpr hsome
        rw [hb2z] at hpp
        rcases zoneB2 hap hapH2 hblH hspr p hpp with
          ⟨hq3, hloc3⟩ | ⟨j3, hj3, hqe3, hloc3⟩ | ⟨j3, hqe3, hS3⟩
        · exact hmkP p hq3 hloc3 (hminb p (by omega))
        · exact hmkA j3 hj3 hloc3 (hminb _ (by omega))
        · have hj3j : j3 < j := by omega
          exact hmkS j3 hS3 (hminb _ (by omega))
      have hsearch2 : search r b2 =
          some (P.length + ((headText r2).length + (A.length + (2 + j))),
            P.length + ((headText r2).length + (A.length + (2 + j))) + n0) := by
        apply search_eq_some_of
        · rw [hb2q]
          exact hm0
        · exact hmin2
      right
      apply ruleStep_of_scan_none hsearch2
      have hb2tail : b2.drop (P.length + ((headText r2).length + (A.length + (2 + j))) +
          n0) = (S.drop j).drop n0 := by
        rw [← List.drop_drop, hb2q]
      rw [hb2tail]
      exact hscan

/-- The per-rule side conditions used by the preservation argument. -/
def GoodRule (r : Rule) : Prop :=
  noApSuffix (tokenOf r) ∧ noApSuffix (headText r) ∧
  '(' ∉ tokenOf r ∧ ')' ∉ tokenOf r ∧ ' ' ∉ tokenOf r ∧
  '(' ∉ headText r ∧ ')' ∉ headText r ∧ insertParenFree r

instance (r : Rule) : Decidable (GoodRule r) := by
  unfold GoodRule
  infer_instance

/-- The cross-rule side conditions used by the preservation argument. -/
def GoodTable (rs : List Rule) : Prop :=
  (∀ r ∈ rs, GoodRule r) ∧
  (∀ r ∈ rs, ∀ r2 ∈ rs, blocked r.old_variant (restHead r2) = true) ∧
  (∀ r ∈ rs, ∀ r2 ∈ rs, r ≠ r2 → blocked r.old_variant r2.old_variant = true)

instance (rs : List Rule) : Decidable (GoodTable rs) := by
  unfold GoodTable
  infer_instance

theorem transformations_good : GoodTable transformations := by decide

theorem step_terminal_preserved_table {rs : List Rule} (hg : GoodTable rs)
    {r r2 : Rule} (hr : r ∈ rs) (hr2 : r2 ∈ rs)
    {b b2 : Buffer} (hterm : rTerminal r b) (hstep : ruleStep r2 b = .spliced b2) :
    rTerminal r b2 := by
  obtain ⟨hgr, hbh, hbt⟩ := hg
  obtain ⟨h1, _, _, h4, h5, _, _, _⟩ := hgr r hr
  obtain ⟨g1, g2, g3, g4, _, g6, g7, _⟩ := hgr r2 hr2
  exact step_terminal_preserved h1 g1 g2 (hbh r hr r2 hr2) (hbt r hr r2 hr2)
    h4 h5 ⟨g3, g4⟩ ⟨g6, g7⟩ hterm hstep

/-- One rule's whole pass preserves another rule's terminal state. -/
theorem applyRule_preserves_terminal {rs : List Rule} (hg : GoodTable rs)
    {r r2 : Rule} (hr : r ∈ rs) (hr2 : r2 ∈ rs) :
    ∀ (m : Nat) (b : Buffer), parenCount b ≤ m → rTerminal r b →
      rTerminal r (applyRule r2 b).1 := by
  have hfree2 : insertParenFree r2 := (hg.1 r2 hr2).2.2.2.2.2.2.2
  intro m
  induction m with
  | zero =>
    intro b hb hterm
    cases hstep : ruleStep r2 b with
    | noMatch => rw [applyRule_of_noMatch hstep]; exact hterm
    | failed => rw [applyRule_of_failed hstep]; exact hterm
    | spliced b2 =>
      have := parenCount_lt_of_spliced hfree2 hstep
      omega
  | succ m ih =>
    intro b hb hterm
    cases hstep : ruleStep r2 b with
    | noMatch => rw [applyRule_of_noMatch hstep]; exact hterm
    | failed => rw [applyRule_of_failed hstep]; exact hterm
    | spliced b2 =>
      have hlt := parenCount_lt_of_spliced hfree2 hstep
      have heq : applyRule r2 b = applyRule r2 b2 := by
        rw [applyRule]
        have h1 : applyRuleFuel r2 (parenCount b + 1) b =
            applyRuleFuel r2 (parenCount b) b2 := by
          simp only [applyRuleFuel, hstep]
        rw [h1]
        exact applyRuleFuel_stable hfree2 (parenCount b) b2 hlt
      rw [heq]
      exact ih b2 (by omega) (step_terminal_preserved_table hg hr hr2 hterm hstep)

/-- A run of several rules preserves a processed rule's terminal state. -/
theorem applyRules_preserves_terminal {rs0 : List Rule} (hg : GoodTable rs0)
    {r : Rule} (hr : r ∈ rs0) :
    ∀ (rs : List Rule), (∀ r2 ∈ rs, r2 ∈ rs0) →
      ∀ b, rTerminal r b → rTerminal r (applyRules rs b).1 := by
  intro rs
  induction rs with
  | nil => intro _ b h; exact h
  | cons r2 rs ih =>
    intro hsub b h
    rw [applyRules_cons]
    exact ih (fun x hx => hsub x (by simp [hx])) _
      (applyRule_preserves_terminal hg hr (hsub r2 (by simp)) (parenCount b) b
        le_rfl h)

/-- After one full run, every rule of the table is terminal on the result. -/
theorem applyRules_all_terminal {rs0 : List Rule} (hg : GoodTable rs0) :
    ∀ (rs : List Rule), (∀ r2 ∈ rs, r2 ∈ rs0) →
      ∀ b r, r ∈ rs → rTerminal r (applyRules rs b).1 := by
  intro rs
  induction rs with
  | nil =>
    intro _ b r hr
    exact absurd hr (by simp)
  | cons r2 rs ih =>
    intro hsub b r hr
    rw [applyRules_cons]
    rcases List.mem_cons.mp hr with rfl | hr2
    · have hfree : insertParenFree r := (hg.1 r (hsub r (by simp))).2.2.2.2.2.2.2
      exact applyRules_preserves_terminal hg (hsub r (by simp)) rs
        (fun x hx => hsub x (by simp [hx])) _ (applyRule_terminal hfree b)
    · exact ih (fun x hx => hsub x (by simp [hx])) _ r hr2

/-- A run over a buffer on which every rule is terminal changes nothing. -/
theorem applyRules_fst_of_terminal :
    ∀ (rs : List Rule) (b : Buffer), (∀ r ∈ rs, rTerminal r b) →
      (applyRules rs b).1 = b := by
  intro rs
  induction rs with
  | nil => intro b _; rfl
  | cons r rs ih =>
    intro b hall
    rw [applyRules_cons]
    have h1 : (applyRule r b).1 = b := applyRule_fst_of_terminal (hall r (by simp))
    show (applyRules rs (applyRule r b).1).1 = b
    rw [h1]
    exact ih b (fun r2 hr2 => hall r2 (by simp [hr2]))

/-! ## Remaining claim theorems outside the idempotence argument -/

/-- C3: the full rewrite is idempotent — applying the complete rule set
(all four transformations, in order) twice to any buffer yields exactly the
same buffer as applying it once.  After the first run every rule's pattern
either no longer occurs or its first occurrence is unbalanced, and later
rules' splices never create, destroy or unblock another rule's occurrences. -/
theorem C3_idempotence (b : Buffer) :
    (applyRules transformations (applyRules transformations b).1).1 =
      (applyRules transformations b).1 := by
  apply applyRules_fst_of_terminal
  intro r hr
  exact applyRules_all_terminal transformations_good transformations
    (fun x hx => hx) b r hr

/-- C6: for every successful splice, the new buffer is exactly the unchanged
prefix before the matched token, then
`AppError::<replacement_head> { <field_name>: <argument text> }` where the
argument text is the verbatim substring between the matched delimiters, then
the unchanged suffix after the closing delimiter; every byte outside the
matched-and-replaced span is preserved exactly. -/
theorem C6_splice_frame (r : Rule) (b b2 : Buffer)
    (h : ruleStep r b = .spliced b2) :
    ∃ P w A S, (∀ c ∈ w, isWs c = true) ∧
      b = P ++ tokenOf r ++ (w ++ '(' :: (A ++ ')' :: S)) ∧
      b2 = P ++ (qualifier ++ r.new_variant ++ " \x7b ".toList ++ r.field_name
        ++ ": ".toList ++ A ++ " \x7d".toList) ++ S := by
  obtain ⟨P, w, A, S, hws, hb, hb2, _, _, _⟩ := ruleStep_spliced_decomp r b b2 h
  exact ⟨P, w, A, S, hws, hb, by rw [hb2]; rfl⟩

/-- Witness for C6 at a concrete input: the hypothesis holds by computation
and the splice frame follows by the theorem. -/
theorem C6_splice_frame_witness :
    ruleStep vRule "AppError::Validation(v)x".toList =
      .spliced "AppError::Validation \x7b reason: v \x7dx".toList ∧
    (∃ P w A S, (∀ c ∈ w, isWs c = true) ∧
      "AppError::Validation(v)x".toList =
        P ++ tokenOf vRule ++ (w ++ '(' :: (A ++ ')' :: S)) ∧
      "AppError::Validation \x7b reason: v \x7dx".toList =
        P ++ (qualifier ++ vRule.new_variant ++ " \x7b ".toList ++ vRule.field_name
          ++ ": ".toList ++ A ++ " \x7d".toList) ++ S) :=
  ⟨rfl, C6_splice_frame vRule _ _ rfl⟩

/-- C9: processing one rule over one buffer is a bounded computation — the
balanced scan is structurally bounded by the buffer, and the per-rule
splice-and-restart loop performs at most `parenCount b` splices: any fuel
above the buffer's open-paren count already computes the loop's final
result. -/
theorem C9_termination (r : Rule) (hmem : r ∈ transformations) (fuel : Nat)
    (b : Buffer) (hfuel : parenCount b < fuel) :
    applyRuleFuel r fuel b = applyRule r b :=
  applyRuleFuel_stable (transformations_insertParenFree r hmem) fuel b hfuel

/-- Witness for C9 at a concrete rule, fuel and buffer. -/
theorem C9_termination_witness :
    vRule ∈ transformations ∧ parenCount "a(b)".toList < 9 ∧
    applyRuleFuel vRule 9 "a(b)".toList = applyRule vRule "a(b)".toList :=
  ⟨by decide, by decide, C9_termination vRule (by decide) 9 _ (by decide)⟩

/-- The fold over a rule list none of whose rules occurs in the buffer
returns the buffer unchanged with all failure flags false. -/
theorem applyRules_no_match : ∀ (rs : List Rule) (b : Buffer),
    (∀ r ∈ rs, search r b = none) →
    applyRules rs b = (b, rs.map fun _ => false) := by
  intro rs
  induction rs with
  | nil => intro b _; rfl
  | cons r rs ih =>
    intro b hall
    rw [applyRules_cons]
    have hp : applyRule r b = (b, false) :=
      applyRule_of_noMatch (ruleStep_of_search_none (hall r (by simp)))
    rw [hp]
    rw [ih b (fun r2 hr2 => hall r2 (by simp [hr2]))]
    simp

/-- C7: a buffer with zero occurrences of any rule's trigger pattern is
returned byte-for-byte unchanged, with no diagnostics and no write-back. -/
theorem C7_preservation (fp b : Buffer)
    (h : ∀ r ∈ transformations, search r b = none) :
    refactor_file fp b = (b, [], false) := by
  have hall : applyRules transformations b = (b, [false, false, false, false]) := by
    rw [applyRules_no_match transformations b h]
    rfl
  rw [refactor_file, hall]
  simp

/-- Witness for C7: a trigger-free buffer passes through untouched. -/
theorem C7_preservation_witness :
    (∀ r ∈ transformations, search r "fn main() \x7b g(1) \x7d".toList = none) ∧
    refactor_file "m.rs".toList "fn main() \x7b g(1) \x7d".toList =
      ("fn main() \x7b g(1) \x7d".toList, [], false) :=
  ⟨by decide, C7_preservation _ _ (by decide)⟩

/-- C4 amended: when the first located occurrence for a rule is unbalanced,
the rule's pass stops there — the buffer is left as it stands at that point
(with a failure flag for the diagnostic) — and all remaining rules are still
attempted on it. -/
theorem C4_failure_local_amended (r : Rule) (rs : List Rule) (b : Buffer)
    (h : ruleStep r b = .failed) :
    applyRules (r :: rs) b = ((applyRules rs b).1, true :: (applyRules rs b).2) := by
  rw [applyRules_cons, applyRule_of_failed h]

/-- Witness for C4 amended: the Validation rule fails on this buffer, and the
remaining rules still run (the InternalError occurrence is rewritten). -/
theorem C4_failure_local_amended_witness :
    ruleStep vRule "AppError::Validation(x AppError::InternalError(1)".toList = .failed ∧
    applyRules (vRule :: transformations)
        "AppError::Validation(x AppError::InternalError(1)".toList =
      ((applyRules transformations
          "AppError::Validation(x AppError::InternalError(1)".toList).1,
        true :: (applyRules transformations
          "AppError::Validation(x AppError::InternalError(1)".toList).2) :=
  ⟨rfl, C4_failure_local_amended vRule transformations _ rfl⟩

/-- C5 amended: whenever the scan reaches the end of the buffer with the
open count still positive, the rule's pass fails and the file's diagnostic
stream contains the failure message — which names the file (and only the
file: the rule and the trigger offset are not part of the message). -/
theorem C5_failure_diag_amended :
    (∀ (r : Rule) (b : Buffer) (s e0 : Nat), search r b = some (s, e0) →
      scanClose (b.drop e0) 1 = none → applyRule r b = (b, true)) ∧
    (∀ (fp b : Buffer), true ∈ (applyRules transformations b).2 →
      errMsg fp ∈ (refactor_file fp b).2.1) := by
  constructor
  · intro r b s e0 h1 h2
    exact applyRule_of_failed (ruleStep_of_scan_none h1 h2)
  · intro fp b hmem
    rw [refactor_file]
    have hin : errMsg fp ∈ ((applyRules transformations b).2.filter id).map
        (fun _ => errMsg fp) := by
      rw [List.mem_map]
      exact ⟨true, List.mem_filter.mpr ⟨hmem, rfl⟩, rfl⟩
    split
    · exact hin
    · exact List.mem_append_left _ hin

/-- Witness for C5 amended at a concrete failing buffer. -/
theorem C5_failure_diag_amended_witness :
    applyRule vRule "AppError::Validation(x".toList =
      ("AppError::Validation(x".toList, true) ∧
    errMsg "f.rs".toList ∈
      (refactor_file "f.rs".toList "AppError::Validation(x".toList).2.1 :=
  ⟨C5_failure_diag_amended.1 vRule _ 0 21 rfl rfl,
   C5_failure_diag_amended.2 "f.rs".toList _ (by decide)⟩

/-- C1: the extractor, started at index 1 of `"(a(b)c)"` (just after the
first opening parenthesis), returns index 7, the position just past the
final close parenthesis that brings the open count to zero — not index 5,
the position just past the first inner close parenthesis. -/
theorem C1_balance_correctness :
    find_matching_close "(a(b)c)".toList 1 = some 7 ∧
    find_matching_close "(a(b)c)".toList 1 ≠ some 5 := by
  exact ⟨rfl, by decide⟩

/-- C2 counterexample: on input `AppError::Validation(AppError::Validation(1))`
the pass for the Validation rule does NOT yield
`AppError::Validation { reason: AppError::Validation(1) }` — because the
loop restarts its search from the beginning of the mutated buffer after the
first splice, the nested trigger is rewritten too, within the same pass. -/
theorem C2_nested_passthrough_cex :
    (applyRule vRule "AppError::Validation(AppError::Validation(1))".toList).1 ≠
      "AppError::Validation \x7b reason: AppError::Validation(1) \x7d".toList ∧
    (applyRule vRule "AppError::Validation(AppError::Validation(1))".toList).1 =
      ("AppError::Validation \x7b reason: " ++
        "AppError::Validation \x7b reason: 1 \x7d \x7d").toList := by
  exact ⟨by decide, rfl⟩

/-- C2 amended: a single splice leaves the inner occurrence untouched (the
argument text is copied verbatim), yielding
`AppError::Validation { reason: AppError::Validation(1) }`; but the pass for
the rule re-searches the mutated buffer after every splice, so by the end of
the pass the nested trigger has been rewritten as well. -/
theorem C2_nested_passthrough_amended :
    ruleStep vRule "AppError::Validation(AppError::Validation(1))".toList =
      .spliced "AppError::Validation \x7b reason: AppError::Validation(1) \x7d".toList ∧
    (applyRule vRule "AppError::Validation(AppError::Validation(1))".toList).1 =
      ("AppError::Validation \x7b reason: " ++
        "AppError::Validation \x7b reason: 1 \x7d \x7d").toList := by
  constructor
  · rfl
  · rfl

/-- C8: rules are applied once each in list order, not to a cross-rule
fixpoint.  With rules `[(Foo -> Bar, x), (Bar -> Baz, y)]`, the input
`AppError::Foo(1)` becomes `AppError::Bar { x: 1 }` after one run through
the rule list — the second rule does not re-fire on the field-style output
of the first.  Likewise, with the code's own table, no later transformation
matches the `{ field: ... }` output of an earlier one. -/
theorem C8_multi_rule_ordering :
    (applyRules
      [⟨"Foo".toList, "Bar".toList, "x".toList⟩,
       ⟨"Bar".toList, "Baz".toList, "y".toList⟩]
      "AppError::Foo(1)".toList).1 = "AppError::Bar \x7b x: 1 \x7d".toList ∧
    (applyRules transformations "AppError::InternalError(1)".toList).1 =
      "AppError::Internal \x7b message: 1 \x7d".toList := by
  constructor
  · rfl
  · rfl

/-- C10: whitespace between the trigger and the opening parenthesis lies
inside the replaced span and is discarded; the output has exactly one space
between the replacement head and the brace regardless of the original
spacing, and an occurrence with a newline before the parenthesis is still
matched and rewritten. -/
theorem C10_whitespace_discarded :
    (applyRules transformations "AppError::Validation(v)".toList).1 =
      "AppError::Validation \x7b reason: v \x7d".toList ∧
    (applyRules transformations ("AppError::Validation \n\t (v)").toList).1 =
      "AppError::Validation \x7b reason: v \x7d".toList := by
  constructor
  · rfl
  · rfl

/-- C4 counterexample: the buffer
`AppError::Validation(a) AppError::Validation(x` contains a trigger
occurrence (at offset 24) whose opening parenthesis has no matching close
before the end of the buffer, yet the Validation rule does NOT leave the
buffer unmodified: the balanced occurrence located before the failing one is
spliced, and that modification is kept. -/
theorem C4_failure_atomic_cex :
    matchLen vRule ("AppError::Validation(a) AppError::Validation(x".toList.drop 24) =
      some 21 ∧
    find_matching_close "AppError::Validation(a) AppError::Validation(x".toList 45 =
      none ∧
    (applyRule vRule "AppError::Validation(a) AppError::Validation(x".toList).1 ≠
      "AppError::Validation(a) AppError::Validation(x".toList := by
  exact ⟨rfl, rfl, by decide⟩

/-- C5 counterexample: the failure diagnostic does not report the trigger's
starting offset (nor the rule): two buffers whose failing triggers start at
different offsets (0 and 2), and a buffer failing under a different rule,
all produce exactly the same diagnostic, which mentions only the file. -/
theorem C5_offset_reported_cex :
    search vRule "AppError::Validation(x".toList = some (0, 21) ∧
    search vRule "..AppError::Validation(x".toList = some (2, 23) ∧
    (refactor_file "foo.rs".toList "AppError::Validation(x".toList).2.1 =
      [errMsg "foo.rs".toList] ∧
    (refactor_file "foo.rs".toList "..AppError::Validation(x".toList).2.1 =
      [errMsg "foo.rs".toList] ∧
    (refactor_file "foo.rs".toList "AppError::InternalError(x".toList).2.1 =
      [errMsg "foo.rs".toList] := by
  exact ⟨rfl, rfl, rfl, rfl, rfl⟩

end Refactor
